import Mathlib

/-!
# Shallow embedding of the nom-based JSON parser in `src/lib.rs`

The source is a Rust library built on the `nom` 7 parser-combinator crate.  Every parser
there has the shape `&str -> IResult<&str, T>`, i.e. it maps an input slice to either
`Ok((remaining_input, value))` or a recoverable error (no parser in this file uses
`cut`/`Err::Failure`, so errors are always the backtrackable `Err::Error` kind).  We embed
inputs as `List Char` and results as `Option (List Char × T)`, with `none` for a parse error.

The mutual recursion between `parse_value` and the two composites is embedded with an
explicit fuel parameter (`parse_valueF`); the exported wrappers supply a fuel that is far
larger than the recursion can ever consume (each nesting level costs one unit of fuel and
each separated-list iteration costs one unit of fuel, and both are bounded by the length of
the input remaining after the leading whitespace), so the wrappers compute exactly what the
unbounded Rust recursion computes.
-/

/-- The characters skipped by nom `multispace0`: space, tab, newline, carriage return. -/
def isWsChar (c : Char) : Bool := c = ' ' || c = '\t' || c = '\n' || c = '\r'

/-- nom `multispace0`: drop the longest (possibly empty) run of leading whitespace. -/
def multispace0 (s : List Char) : List Char := s.dropWhile isWsChar

/-- nom `char(c)`: consume exactly the character `c`, failing otherwise. -/
def charP (c : Char) (s : List Char) : Option (List Char) :=
  match s with
  | [] => none
  | x :: rest => if x = c then some rest else none

/-- nom `tag(t)`: consume exactly the literal `t`, failing when it is not a prefix. -/
def tagP (t : List Char) (s : List Char) : Option (List Char) :=
  if t.isPrefixOf s then some (s.drop t.length) else none

/-- nom `digit1`: the longest nonempty run of ASCII digits, as `(remaining, run)`. -/
def digit1 (s : List Char) : Option (List Char × List Char) :=
  let run := s.takeWhile Char.isDigit
  if run.isEmpty then none else some (s.drop run.length, run)

/--
The loop of nom `escaped(is_not("\\\""), '\\', char('"'))` as used by `parse_string`.
`n` is the offset consumed so far (the `input.offset(&i)` of the nom source); the result is
the total number of characters consumed, or `none` on failure.  Following the nom source:
at the end of the input the scan succeeds; at an unescaped `"` it succeeds iff something was
consumed (`index == 0` is an `Escaped` error); at a `\` the single escapable character is
`"` (the third argument of `escaped` is `char('"')`), anything else — including a second
backslash — is an error, as is a `\` that ends the input.  The maximal `is_not` run of the
nom source is consumed here one character per step, which visits the same positions.
-/
def escaped_go : List Char → Nat → Option Nat
  | [], n => some n
  | c :: rest, n =>
    if c = '"' then (if n = 0 then none else some n)
    else if c = '\\' then
      match rest with
      | [] => none
      | e :: rest2 => if e = '"' then escaped_go rest2 (n + 2) else none
    else escaped_go rest (n + 1)

/-- nom `escaped(is_not("\\\""), '\\', char('"'))`: `(remaining, consumed span)`. -/
def escapedP (s : List Char) : Option (List Char × List Char) :=
  match escaped_go s 0 with
  | none => none
  | some n => some (s.drop n, s.take n)

/--
`parse_string` of the source: `delimited(char('"'), escaped(is_not("\\\""), '\\', char('"')),
char('"'))`, returning the enclosed span unchanged (the Rust code only copies it with
`to_owned`; no escape sequence is decoded).
-/
def parse_string (s : List Char) : Option (List Char × List Char) :=
  match charP '"' s with
  | none => none
  | some s1 =>
    match escapedP s1 with
    | none => none
    | some (s2, content) =>
      match charP '"' s2 with
      | none => none
      | some s3 => some (s3, content)

/-- The numeric value of a digit run, most significant digit first. -/
def digitsToNat (ds : List Char) : Nat := ds.foldl (fun a c => a * 10 + (c.toNat - 48)) 0

/--
Exact-rational model of Rust std `str::parse::<f64>` on the strings this parser can feed it:
unsigned finite decimal literals (a digit run, optionally followed by `.` and a digit run,
either run possibly empty but not both).  The IEEE-754 rounding of the real `f64` is
abstracted away — the value returned is the exact rational denoted by the literal, built
with `mkRat` (for `ip.fp` the value is `(ip * 10^|fp| + fp) / 10^|fp|`, i.e. exactly
`ip + fp / 10^|fp|`; the lemma `mkRat_decimal_eq` below restates it that way).  Rust's
`f64` grammar also has signs, exponents and `inf`/`NaN` forms; none of those can occur in a
span recognized by `parse_number`, so they are omitted here.
-/
def parseF64 (s : List Char) : Option ℚ :=
  match s.drop (s.takeWhile Char.isDigit).length with
  | [] =>
    if (s.takeWhile Char.isDigit).isEmpty then none
    else some (mkRat (digitsToNat (s.takeWhile Char.isDigit)) 1)
  | '.' :: r2 =>
    if (r2.drop (r2.takeWhile Char.isDigit).length).isEmpty = false then none
    else if (s.takeWhile Char.isDigit).isEmpty && (r2.takeWhile Char.isDigit).isEmpty then none
    else
      some (mkRat
        (digitsToNat (s.takeWhile Char.isDigit) * 10 ^ (r2.takeWhile Char.isDigit).length +
          digitsToNat (r2.takeWhile Char.isDigit))
        (10 ^ (r2.takeWhile Char.isDigit).length))
  | _ => none

/--
The `number_parser` alternation of `parse_number`:
`alt((recognize(tuple((integer_parser, char('.'), fractional_parser))),
recognize(integer_parser_2)))`, returning `(remaining, recognized span)`.

Both `integer_parser`s are `map_res(digit1, |s| s.parse::<f64>())`; `fractional_parser` is
the same `map_res` composed with a `.map` that rescales the value — but `recognize` throws
every produced value away and returns the consumed slice, and `.map` cannot fail, so only
the `map_res` conversions (the `parseF64` checks below) can influence acceptance.  Since
`digit1` consumes exactly its digit run, the slice consumed by the first branch is
`ispan ++ '.' :: fspan` and by the second branch `ispan`.  When the first branch fails
(no `'.'`, no fraction digits, or a failed conversion) `alt` re-parses from the start with
`recognize(integer_parser_2)`, which deterministically re-reads the same `ispan`.
-/
def number_recognizer (s : List Char) : Option (List Char × List Char) :=
  match digit1 s with
  | none => none
  | some (s1, ispan) =>
    match parseF64 ispan with
    | none => none
    | some _ =>
      match charP '.' s1 with
      | none => some (s1, ispan)
      | some s2 =>
        match digit1 s2 with
        | none => some (s1, ispan)
        | some (s3, fspan) =>
          match parseF64 fspan with
          | none => some (s1, ispan)
          | some _ => some (s3, ispan ++ '.' :: fspan)

/--
`parse_number` of the source.  The recognized span is converted with
`number.parse().unwrap()`; the `unwrap` (a potential panic) is modelled by the second
`match` — claim C9 proves the `none` branch unreachable, so the `Option` bind and the
Rust `unwrap` agree on every input.
-/
def parse_number (s : List Char) : Option (List Char × ℚ) :=
  match number_recognizer s with
  | none => none
  | some (rem, span) =>
    match parseF64 span with
    | none => none
    | some q => some (rem, q)

/-- `parse_boolean`: `alt((map(tag("true"), |_| true), map(tag("false"), |_| false)))`. -/
def parse_boolean (s : List Char) : Option (List Char × Bool) :=
  match tagP "true".toList s with
  | some r => some (r, true)
  | none =>
    match tagP "false".toList s with
    | some r => some (r, false)
    | none => none

/-- `parse_null`: `map(tag("null"), |_| ())`. -/
def parse_null (s : List Char) : Option (List Char × Unit) :=
  (tagP "null".toList s).map fun r => (r, ())

/--
The `JsonValue` enum of the source.  Rust's `String` payloads become `List Char` and the
`f64` payload becomes `ℚ`, the exact-rational abstraction used throughout (`parseF64`).
-/
inductive JsonValue : Type where
  | Object : List (List Char × JsonValue) → JsonValue
  | Array : List JsonValue → JsonValue
  | String : List Char → JsonValue
  | Number : ℚ → JsonValue
  | Boolean : Bool → JsonValue
  | Null : JsonValue

/-- The pair parser of `parse_object`:
`tuple((parse_string, preceded(multispace0, char(':')), parse_value))` followed by the
`map` that keeps `(key, value)`; the value parser arrives as the argument `pv` (in the
source it is the mutually recursive `parse_value`). -/
def parse_pair_with (pv : List Char → Option (List Char × JsonValue)) (s : List Char) :
    Option (List Char × (List Char × JsonValue)) :=
  match parse_string s with
  | none => none
  | some (s1, key) =>
    match charP ':' (multispace0 s1) with
    | none => none
    | some s2 =>
      match pv s2 with
      | none => none
      | some (s3, v) => some (s3, (key, v))

/--
The loop of nom `separated_list0(sep, elem)` after a successful first element: try `sep`;
if it fails, stop with what has accumulated; if it succeeds, nom first rejects a separator
that consumed nothing (the infinite-loop guard — dead here, since both separators consume
their comma) and then tries `elem`; if `elem` fails the loop stops *before* the separator.
The fuel only bounds the iteration count and is never exhausted under the wrappers below.
-/
def sepLoopF {α : Type} :
    Nat → (List Char → Option (List Char)) → (List Char → Option (List Char × α)) →
    List Char → List α → Option (List Char × List α)
  | 0, _, _, _, _ => none
  | fuel + 1, sep, elem, s, acc =>
    match sep s with
    | none => some (s, acc)
    | some s1 =>
      if s1.length = s.length then none
      else
        match elem s1 with
        | none => some (s, acc)
        | some (s2, a) => sepLoopF fuel sep elem s2 (acc ++ [a])

/-- nom `separated_list0(sep, elem)`: a failing first element yields the empty list. -/
def separated_list0F {α : Type} (fuel : Nat) (sep : List Char → Option (List Char))
    (elem : List Char → Option (List Char × α)) (s : List Char) :
    Option (List Char × List α) :=
  match elem s with
  | none => some (s, [])
  | some (s1, a) => sepLoopF fuel sep elem s1 [a]

/-- The separator of both composites: `preceded(multispace0, char(','))`. -/
def comma_sep (s : List Char) : Option (List Char) := charP ',' (multispace0 s)

/-- `parse_object` of the source with the recursive value parser abstracted:
`delimited(preceded(multispace0, char('{')), separated_list0(preceded(multispace0,
char(',')), parse_pair), preceded(multispace0, char('}')))` followed by the `map` that
collects `(key, value)` pairs in encounter order. -/
def parse_object_with (pv : List Char → Option (List Char × JsonValue)) (fuel : Nat)
    (s : List Char) : Option (List Char × JsonValue) :=
  match charP '{' (multispace0 s) with
  | none => none
  | some s1 =>
    match separated_list0F fuel comma_sep (parse_pair_with pv) s1 with
    | none => none
    | some (s2, pairs) =>
      match charP '}' (multispace0 s2) with
      | none => none
      | some s3 => some (s3, JsonValue.Object pairs)

/-- `parse_array` of the source with the recursive value parser abstracted. -/
def parse_array_with (pv : List Char → Option (List Char × JsonValue)) (fuel : Nat)
    (s : List Char) : Option (List Char × JsonValue) :=
  match charP '[' (multispace0 s) with
  | none => none
  | some s1 =>
    match separated_list0F fuel comma_sep pv s1 with
    | none => none
    | some (s2, elems) =>
      match charP ']' (multispace0 s2) with
      | none => none
      | some s3 => some (s3, JsonValue.Array elems)

/--
`parse_value` of the source, fuel-indexed: `preceded(multispace0, alt((parse_object,
parse_array, map(parse_string, String), map(parse_number, Number), map(parse_boolean,
Boolean), map(parse_null, |_| Null))))`.  The alternatives are tried in exactly the
source's order and the first success wins.
-/
def parse_valueF : Nat → List Char → Option (List Char × JsonValue)
  | 0, _ => none
  | fuel + 1, s =>
    let t := multispace0 s
    match parse_object_with (parse_valueF fuel) fuel t with
    | some r => some r
    | none =>
      match parse_array_with (parse_valueF fuel) fuel t with
      | some r => some r
      | none =>
        match parse_string t with
        | some (r, str) => some (r, JsonValue.String str)
        | none =>
          match parse_number t with
          | some (r, q) => some (r, JsonValue.Number q)
          | none =>
            match parse_boolean t with
            | some (r, b) => some (r, JsonValue.Boolean b)
            | none =>
              match parse_null t with
              | some (r, _) => some (r, JsonValue.Null)
              | none => none

/--
The fuel supplied by the wrappers: each nesting level of the recursion costs one unit and
each separated-list iteration costs one unit, and both are bounded by the number of
characters after the leading whitespace, so this is never exhausted.
-/
def fuelFor (s : List Char) : Nat := 4 * (multispace0 s).length + 4

/-- `parse_value` of the source (the wrapper the other parsers call). -/
def parse_value (s : List Char) : Option (List Char × JsonValue) :=
  parse_valueF (fuelFor s) s

/-- `parse_object` of the source, as the independently callable function. -/
def parse_object (s : List Char) : Option (List Char × JsonValue) :=
  parse_object_with (parse_valueF (fuelFor s)) (fuelFor s) s

/-- `parse_array` of the source, as the independently callable function. -/
def parse_array (s : List Char) : Option (List Char × JsonValue) :=
  parse_array_with (parse_valueF (fuelFor s)) (fuelFor s) s

/-- `parse_json` of the source: `preceded(multispace0, parse_value)`. -/
def parse_json (s : List Char) : Option (List Char × JsonValue) :=
  parse_value (multispace0 s)

/-! ## Elementary facts about the leaf parsers -/

theorem takeWhile_of_all {α : Type} {p : α → Bool} {l : List α} (h : ∀ a ∈ l, p a = true) :
    l.takeWhile p = l := by
  induction l with
  | nil => rfl
  | cons a l ih =>
    rw [List.takeWhile_cons, h a (List.mem_cons_self a l)]
    exact congrArg (a :: ·) (ih fun x hx => h x (List.mem_cons_of_mem a hx))

theorem takeWhile_append_stop {α : Type} {p : α → Bool} {u t : List α} {b : α}
    (h : ∀ a ∈ u, p a = true) (hb : p b = false) :
    (u ++ b :: t).takeWhile p = u := by
  induction u with
  | nil => simpa [List.takeWhile_cons] using hb
  | cons a u ih =>
    rw [List.cons_append, List.takeWhile_cons, h a (List.mem_cons_self a u)]
    exact congrArg (a :: ·) (ih fun x hx => h x (List.mem_cons_of_mem a hx))

/-! Step equations for the `escaped` scan, usable with a symbolic tail. -/

theorem escaped_go_nil (n : Nat) : escaped_go [] n = some n := rfl

theorem escaped_go_quote (r : List Char) (n : Nat) :
    escaped_go ('"' :: r) n = if n = 0 then none else some n := by
  rw [escaped_go.eq_def]
  simp

theorem escaped_go_ord {c : Char} (r : List Char) (n : Nat) (h1 : ¬ c = '"')
    (h2 : ¬ c = '\\') : escaped_go (c :: r) n = escaped_go r (n + 1) := by
  rw [escaped_go.eq_def]
  simp [h1, h2]

theorem escaped_go_esc_quote (r : List Char) (n : Nat) :
    escaped_go ('\\' :: '"' :: r) n = escaped_go r (n + 2) := by
  rw [escaped_go]
  simp

theorem escaped_go_esc_other {e : Char} (r : List Char) (n : Nat) (h : ¬ e = '"') :
    escaped_go ('\\' :: e :: r) n = none := by
  rw [escaped_go]
  simp [h]

theorem escaped_go_esc_nil (n : Nat) : escaped_go ['\\'] n = none := by rfl

theorem charP_cons_self (c : Char) (r : List Char) : charP c (c :: r) = some r := by
  simp [charP]

theorem charP_cons_ne {a c : Char} (r : List Char) (h : ¬ a = c) : charP c (a :: r) = none := by
  simp [charP, h]

theorem charP_nil (c : Char) : charP c [] = none := rfl

theorem digit1_all {ds : List Char} (hne : ds ≠ []) (h : ∀ c ∈ ds, c.isDigit = true) :
    digit1 ds = some ([], ds) := by
  unfold digit1
  rw [takeWhile_of_all h]
  cases ds with
  | nil => exact absurd rfl hne
  | cons a l => simp [List.isEmpty]

theorem digit1_stop {as t : List Char} {b : Char} (hne : as ≠ [])
    (h : ∀ c ∈ as, c.isDigit = true) (hb : b.isDigit = false) :
    digit1 (as ++ b :: t) = some (b :: t, as) := by
  unfold digit1
  rw [takeWhile_append_stop h hb]
  cases as with
  | nil => exact absurd rfl hne
  | cons a l => simp [List.isEmpty, List.drop_left]

theorem digit1_inv {s r span : List Char} (h : digit1 s = some (r, span)) :
    span ≠ [] ∧ (∀ c ∈ span, c.isDigit = true) ∧ r = s.drop span.length ∧
      span = s.takeWhile Char.isDigit := by
  unfold digit1 at h
  by_cases hE : (s.takeWhile Char.isDigit).isEmpty
  · simp [hE] at h
  · simp only [hE, Bool.false_eq_true, if_false, Option.some.injEq, Prod.mk.injEq] at h
    obtain ⟨hr, hspan⟩ := h
    subst hspan
    refine ⟨fun hnil => by simp [hnil] at hE, ?_, hr.symm, rfl⟩
    intro c hc
    exact List.mem_takeWhile_imp hc

theorem parseF64_digits {ds : List Char} (hne : ds ≠ []) (h : ∀ c ∈ ds, c.isDigit = true) :
    parseF64 ds = some (mkRat (digitsToNat ds) 1) := by
  unfold parseF64
  simp only [takeWhile_of_all h, List.drop_length]
  cases ds with
  | nil => exact absurd rfl hne
  | cons a l => simp [List.isEmpty]

theorem parseF64_decimal {as bs : List Char} (ha : as ≠ []) (hb : bs ≠ [])
    (hda : ∀ c ∈ as, c.isDigit = true) (hdb : ∀ c ∈ bs, c.isDigit = true) :
    parseF64 (as ++ '.' :: bs) =
      some (mkRat (digitsToNat as * 10 ^ bs.length + digitsToNat bs) (10 ^ bs.length)) := by
  unfold parseF64
  have hdot : ('.' : Char).isDigit = false := by decide
  simp only [takeWhile_append_stop hda hdot, List.drop_left,
    takeWhile_of_all hdb, List.drop_length]
  cases as with
  | nil => exact absurd rfl ha
  | cons a l =>
    cases bs with
    | nil => exact absurd rfl hb
    | cons b m => simp [List.isEmpty]

theorem mkRat_nat_one (n : ℕ) : mkRat n 1 = (n : ℚ) := by
  rw [Rat.mkRat_eq_div]
  norm_num

theorem mkRat_decimal_eq (a b k : ℕ) :
    mkRat (a * 10 ^ k + b) (10 ^ k) = (a : ℚ) + (b : ℚ) / (10 : ℚ) ^ k := by
  rw [Rat.mkRat_eq_div]
  push_cast
  rw [add_div, mul_div_assoc, div_self (by positivity), mul_one]

theorem number_recognizer_digits {ds : List Char} (hne : ds ≠ [])
    (h : ∀ c ∈ ds, c.isDigit = true) : number_recognizer ds = some ([], ds) := by
  unfold number_recognizer
  simp only [digit1_all hne h, parseF64_digits hne h]
  rfl

theorem number_recognizer_decimal {as bs : List Char} (ha : as ≠ []) (hb : bs ≠ [])
    (hda : ∀ c ∈ as, c.isDigit = true) (hdb : ∀ c ∈ bs, c.isDigit = true) :
    number_recognizer (as ++ '.' :: bs) = some ([], as ++ '.' :: bs) := by
  unfold number_recognizer
  have hdot : ('.' : Char).isDigit = false := by decide
  simp only [digit1_stop ha hda hdot, parseF64_digits ha hda,
    show charP '.' ('.' :: bs) = some bs from rfl, digit1_all hb hdb,
    parseF64_digits hb hdb]

/-! ## Whitespace lemmas -/

theorem multispace0_ws_append {w : List Char} (s : List Char)
    (h : ∀ c ∈ w, isWsChar c = true) : multispace0 (w ++ s) = multispace0 s := by
  induction w with
  | nil => rfl
  | cons c w ih =>
    show multispace0 (c :: (w ++ s)) = multispace0 s
    unfold multispace0
    rw [List.dropWhile_cons, h c (List.mem_cons_self c w)]
    exact ih fun x hx => h x (List.mem_cons_of_mem c hx)

/-! ## Claims about `parse_number` (C3, C4, C9) -/

/-- Claim C3: for every input that is a non-empty digit string `d+`, `parse_number`
succeeds and returns the exact value of interpreting those digits as a base-10 integer
(`digitsToNat`, cast into the exact-rational model of the `f64`), with empty remaining
input, the digit string being the entire input. -/
theorem claim_C3 (ds : List Char) (hne : ds ≠ []) (h : ∀ c ∈ ds, c.isDigit = true) :
    parse_number ds = some ([], (digitsToNat ds : ℚ)) := by
  unfold parse_number
  simp only [number_recognizer_digits hne h, parseF64_digits hne h, mkRat_nat_one]

theorem claim_C3_witness : parse_number "123".toList = some ([], ((123 : ℕ) : ℚ)) :=
  (claim_C3 "123".toList (by decide) (by decide)).trans (by decide)

/-- Claim C4: for every decimal-literal input `d+.d+`, `parse_number` attempts the decimal
form before the bare-integer form, so the whole literal, fractional part included, is
consumed (the remaining input is empty, never `.d+`), and the returned value equals the
direct interpretation of the full decimal string: integer part plus fractional part scaled
by `10^(number of fractional digits)`, exactly, in the rational model of the `f64`. -/
theorem claim_C4 (as bs : List Char) (ha : as ≠ []) (hb : bs ≠ [])
    (hda : ∀ c ∈ as, c.isDigit = true) (hdb : ∀ c ∈ bs, c.isDigit = true) :
    parse_number (as ++ '.' :: bs) =
      some ([], (digitsToNat as : ℚ) + (digitsToNat bs : ℚ) / (10 : ℚ) ^ bs.length) := by
  unfold parse_number
  simp only [number_recognizer_decimal ha hb hda hdb, parseF64_decimal ha hb hda hdb,
    mkRat_decimal_eq]

theorem claim_C4_witness :
    parse_number "123.456".toList =
      some ([], ((123 : ℕ) : ℚ) + ((456 : ℕ) : ℚ) / (10 : ℚ) ^ 3) := by
  rw [show "123.456".toList = "123".toList ++ '.' :: "456".toList from by decide,
    claim_C4 "123".toList "456".toList (by decide) (by decide) (by decide) (by decide)]
  simp only [show digitsToNat "123".toList = 123 from by decide,
    show digitsToNat "456".toList = 456 from by decide,
    show "456".toList.length = 3 from by decide]

/-- Claim C9: `parse_number` is total and never panics: whenever the recognizer
(`number_parser` in the source) succeeds, the recognized span is a digit string or a
digit-dot-digit string, so the final string-to-double conversion — the `.unwrap()` on the
recognized span, modelled by `parseF64` — always succeeds, and `parse_number` returns its
value. -/
theorem claim_C9 (s rem span : List Char) (h : number_recognizer s = some (rem, span)) :
    ((span ≠ [] ∧ ∀ c ∈ span, c.isDigit = true) ∨
      (∃ as bs, span = as ++ '.' :: bs ∧ as ≠ [] ∧ bs ≠ [] ∧
        (∀ c ∈ as, c.isDigit = true) ∧ (∀ c ∈ bs, c.isDigit = true))) ∧
    ∃ q, parseF64 span = some q ∧ parse_number s = some (rem, q) := by
  cases h1 : digit1 s with
  | none =>
    unfold number_recognizer at h
    rw [h1] at h
    exact absurd h (by simp)
  | some p1 =>
    obtain ⟨s1, ispan⟩ := p1
    obtain ⟨hi_ne, hi_dig, -, -⟩ := digit1_inv h1
    have hPi := parseF64_digits hi_ne hi_dig
    cases h3 : charP '.' s1 with
    | none =>
      have hNR : number_recognizer s = some (s1, ispan) := by
        simp only [number_recognizer, h1, hPi, h3]
      rw [hNR] at h
      simp only [Option.some.injEq, Prod.mk.injEq] at h
      obtain ⟨hrem, hspan⟩ := h
      subst hrem; subst hspan
      exact ⟨Or.inl ⟨hi_ne, hi_dig⟩, _, hPi, by simp only [parse_number, hNR, hPi]⟩
    | some s2 =>
      cases h4 : digit1 s2 with
      | none =>
        have hNR : number_recognizer s = some (s1, ispan) := by
          simp only [number_recognizer, h1, hPi, h3, h4]
        rw [hNR] at h
        simp only [Option.some.injEq, Prod.mk.injEq] at h
        obtain ⟨hrem, hspan⟩ := h
        subst hrem; subst hspan
        exact ⟨Or.inl ⟨hi_ne, hi_dig⟩, _, hPi, by simp only [parse_number, hNR, hPi]⟩
      | some p4 =>
        obtain ⟨s3, fspan⟩ := p4
        obtain ⟨hf_ne, hf_dig, -, -⟩ := digit1_inv h4
        have hPf := parseF64_digits hf_ne hf_dig
        have hNR : number_recognizer s = some (s3, ispan ++ '.' :: fspan) := by
          simp only [number_recognizer, h1, hPi, h3, h4, hPf]
        rw [hNR] at h
        simp only [Option.some.injEq, Prod.mk.injEq] at h
        obtain ⟨hrem, hspan⟩ := h
        subst hrem; subst hspan
        exact ⟨Or.inr ⟨ispan, fspan, rfl, hi_ne, hf_ne, hi_dig, hf_dig⟩, _,
          parseF64_decimal hi_ne hf_ne hi_dig hf_dig,
          by simp only [parse_number, hNR, parseF64_decimal hi_ne hf_ne hi_dig hf_dig]⟩

theorem claim_C9_witness :
    ∃ q, parseF64 "1.5".toList = some q ∧ parse_number "1.5".toList = some ([], q) :=
  (claim_C9 "1.5".toList [] "1.5".toList (by decide)).2

/-! ## Claim C1: whitespace after the comma separator of an object -/

/-- Claim C1 (evaluation at the failing input): the claim says that object inputs whose
pairs are separated by a comma followed by whitespace, such as `{"a": 1, "b": 2}`, parse
successfully.  The code disagrees: `separated_list0`'s element parser starts with
`parse_string`, which skips no whitespace, so after the comma the blank makes the pair
parser fail, `separated_list0` stops before the comma, and the closing-brace match then
fails on the comma; `parse_object` (and therefore `parse_json`) rejects the input. -/
theorem claim_C1 :
    parse_object "\x7b\"a\": 1, \"b\": 2\x7d".toList = none ∧
      parse_json "\x7b\"a\": 1, \"b\": 2\x7d".toList = none ∧
      parse_object "\x7b\"a\": 1,\"b\": 2\x7d".toList =
        some ([], JsonValue.Object
          [("a".toList, JsonValue.Number 1), ("b".toList, JsonValue.Number 2)]) :=
  ⟨by rfl, by rfl, by rfl⟩

/-! ## Claim C7: leading whitespace is irrelevant to the entry point -/

/-- Claim C7: for every input and every whitespace string (any mixture of space, tab,
newline, carriage return, zero or more), parsing the whitespace-prefixed input through the
entry point `parse_json` yields exactly the same result — same parsed value and same
remainder on success, failure exactly when the unprefixed input fails. -/
theorem claim_C7 (w s : List Char) (h : ∀ c ∈ w, isWsChar c = true) :
    parse_json (w ++ s) = parse_json s := by
  unfold parse_json
  rw [multispace0_ws_append s h]

theorem claim_C7_witness :
    parse_json (" \t\n\r".toList ++ "true".toList) = parse_json "true".toList ∧
      parse_json "true".toList = some ([], JsonValue.Boolean true) :=
  ⟨claim_C7 " \t\n\r".toList "true".toList (by decide), by rfl⟩

/-! ## Claim C10: the empty string literal -/

/-- Claim C10 (evaluation at the failing input): the claim says the empty string literal
`""` is accepted by `parse_string` with an empty payload.  The code disagrees: the
`escaped(is_not("\\\""), '\\', char('"'))` combinator reports an `Escaped` error when its
first character is the closing quote and nothing has been consumed (`is_not` requires at
least one character), so `parse_string` fails on `""` — and on `""` followed by anything. -/
theorem claim_C10 :
    parse_string "\"\"".toList = none ∧ ∀ rest, parse_string ('"' :: '"' :: rest) = none := by
  refine ⟨by rfl, fun rest => ?_⟩
  have h0 : escaped_go ('"' :: rest) 0 = none := by rw [escaped_go_quote]; rfl
  simp [parse_string, charP, escapedP, h0]

/-! ## Claim C2: what `parse_string` accepts between the quotes -/

/-- A token of well-formed string content: an ordinary character (neither `"` nor `\`)
or the two-character escape `\"` — the only escape pair `escaped(_, '\\', char('"'))`
accepts. -/
inductive StrTok : Type where
  | chr : Char → StrTok
  | escq : StrTok
deriving DecidableEq

/-- Validity of a content token: an ordinary character must be neither `"` nor `\`. -/
def strTokOkB : StrTok → Bool
  | .chr c => !(c = '"' || c = '\\')
  | .escq => true

/-- The characters a token list denotes (`escq` is the raw two-character pair). -/
def flattenToks : List StrTok → List Char
  | [] => []
  | .chr c :: ts => c :: flattenToks ts
  | .escq :: ts => '\\' :: '"' :: flattenToks ts

theorem flattenToks_ne_nil {ts : List StrTok} (h : ts ≠ []) : flattenToks ts ≠ [] := by
  cases ts with
  | nil => exact absurd rfl h
  | cons t ts =>
    cases t with
    | chr c => exact fun hx => by simp [flattenToks] at hx
    | escq => exact fun hx => by simp [flattenToks] at hx

theorem escaped_go_flat (ts : List StrTok) (rest : List Char) :
    ∀ n : Nat, (∀ t ∈ ts, strTokOkB t = true) → 0 < n + (flattenToks ts).length →
      escaped_go (flattenToks ts ++ '"' :: rest) n = some (n + (flattenToks ts).length) := by
  induction ts with
  | nil =>
    intro n _ hpos
    simp only [flattenToks, List.nil_append, List.length_nil, Nat.add_zero] at hpos ⊢
    rw [escaped_go_quote, if_neg (by omega)]
  | cons t ts ih =>
    intro n hok hpos
    have hts : ∀ t ∈ ts, strTokOkB t = true := fun x hx => hok x (List.mem_cons_of_mem t hx)
    cases t with
    | chr c =>
      have hc := hok (StrTok.chr c) (List.mem_cons_self _ _)
      simp only [strTokOkB, Bool.not_eq_true', Bool.or_eq_false_iff, decide_eq_false_iff_not]
        at hc
      simp only [flattenToks, List.cons_append, List.length_cons]
      rw [escaped_go_ord _ _ hc.1 hc.2, ih (n + 1) hts (by omega)]
      simp only [Option.some.injEq]
      omega
    | escq =>
      simp only [flattenToks, List.cons_append, List.length_cons]
      rw [escaped_go_esc_quote, ih (n + 2) hts (by omega)]
      simp only [Option.some.injEq]
      omega

theorem escaped_go_esc_run (u : List Char) {e : Char} (rest : List Char)
    (hu : ∀ c ∈ u, ¬ c = '"' ∧ ¬ c = '\\') (he : ¬ e = '"') :
    ∀ n : Nat, escaped_go (u ++ '\\' :: e :: rest) n = none := by
  induction u with
  | nil => exact fun n => escaped_go_esc_other _ _ he
  | cons c u ih =>
    intro n
    have hc := hu c (List.mem_cons_self _ _)
    rw [List.cons_append, escaped_go_ord _ _ hc.1 hc.2]
    exact ih (fun x hx => hu x (List.mem_cons_of_mem c hx)) (n + 1)

/-- Claim C2 (counterexample): the claim says a `\\` pair is treated as part of the escaped
content; on the four-character input `"\\"` (quote, backslash, backslash, quote) it would
therefore succeed and return the pair, but `parse_string` fails: the only escapable
character of the `escaped` combinator is `"`, so the second backslash is an error. -/
theorem claim_C2_counterexample : parse_string "\"\\\\\"".toList = none := by rfl

/-- Claim C2 (amended): for every input beginning with a double quote whose content is a
nonempty sequence of ordinary characters (neither `"` nor `\`) and two-character `\"`
pairs followed by a closing quote, `parse_string` consumes up to the next unescaped double
quote — treating each `\"` pair as escaped content rather than a terminator — then
consumes the closing quote and returns the enclosed raw text with the escapes left
undecoded.  A `\` followed by anything other than `"` (in particular the pair `\\`) is
not escaped content: it makes `parse_string` fail. -/
theorem claim_C2 :
    (∀ ts rest, ts ≠ [] → (∀ t ∈ ts, strTokOkB t = true) →
      parse_string ('"' :: (flattenToks ts ++ '"' :: rest)) = some (rest, flattenToks ts)) ∧
    (∀ u e rest, (∀ c ∈ u, ¬ c = '"' ∧ ¬ c = '\\') → ¬ e = '"' →
      parse_string ('"' :: (u ++ '\\' :: e :: rest)) = none) := by
  constructor
  · intro ts rest hne hok
    have hpos : 0 < 0 + (flattenToks ts).length := by
      have := flattenToks_ne_nil hne
      cases hft : flattenToks ts with
      | nil => exact absurd hft this
      | cons a l => simp
    have hg := escaped_go_flat ts rest 0 hok hpos
    rw [Nat.zero_add] at hg
    simp only [parse_string, charP_cons_self, escapedP, hg, List.take_left' rfl,
      List.drop_left' rfl]
  · intro u e rest hu he
    have hg := escaped_go_esc_run u rest hu he 0
    simp only [parse_string, charP_cons_self, escapedP, hg]

theorem claim_C2_witness :
    parse_string ('"' :: (flattenToks [StrTok.chr 'a', StrTok.escq, StrTok.chr 'b'] ++
        '"' :: " tail".toList)) =
      some (" tail".toList, flattenToks [StrTok.chr 'a', StrTok.escq, StrTok.chr 'b']) ∧
    parse_string ('"' :: (['a'] ++ '\\' :: '\\' :: [])) = none :=
  ⟨claim_C2.1 [StrTok.chr 'a', StrTok.escq, StrTok.chr 'b'] " tail".toList (by decide)
      (by decide),
    claim_C2.2 ['a'] '\\' [] (by decide) (by decide)⟩

/-! ## Step equations for the remaining parsers, usable with symbolic tails -/

theorem multispace0_nil : multispace0 [] = [] := rfl

theorem multispace0_cons_nws {c : Char} (r : List Char) (h : isWsChar c = false) :
    multispace0 (c :: r) = c :: r := by
  simp [multispace0, List.dropWhile_cons, h]

theorem multispace0_cons_ws {c : Char} (r : List Char) (h : isWsChar c = true) :
    multispace0 (c :: r) = multispace0 r := by
  simp [multispace0, List.dropWhile_cons, h]

theorem digit1_cons_nondigit {c : Char} (r : List Char) (h : c.isDigit = false) :
    digit1 (c :: r) = none := by
  simp [digit1, List.takeWhile_cons, h, List.isEmpty]

theorem digit1_nil : digit1 [] = none := rfl

theorem parse_number_nondigit {c : Char} (r : List Char) (h : c.isDigit = false) :
    parse_number (c :: r) = none := by
  simp [parse_number, number_recognizer, digit1_cons_nondigit r h]

theorem parse_number_nil : parse_number [] = none := rfl

theorem parse_string_ne_head {c : Char} (r : List Char) (h : ¬ c = '"') :
    parse_string (c :: r) = none := by
  simp [parse_string, charP_cons_ne r h]

theorem parse_string_nil : parse_string [] = none := rfl

theorem isPrefixOf_self_append (t r : List Char) : t.isPrefixOf (t ++ r) = true := by
  induction t with
  | nil => simp
  | cons a t ih => simp [List.isPrefixOf_cons₂, ih]

theorem tagP_self_append (t r : List Char) : tagP t (t ++ r) = some r := by
  simp [tagP, isPrefixOf_self_append, List.drop_left]

theorem tagP_ne_head {a b : Char} (ht hr : List Char) (h : ¬ b = a) :
    tagP (a :: ht) (b :: hr) = none := by
  have hab : (a == b) = false := beq_eq_false_iff_ne.mpr fun hh => h hh.symm
  simp [tagP, List.isPrefixOf_cons₂, hab]

theorem tagP_nil_input {a : Char} (ht : List Char) : tagP (a :: ht) [] = none := rfl

theorem parse_boolean_true (rest : List Char) :
    parse_boolean ("true".toList ++ rest) = some (rest, true) := by
  have ht := tagP_self_append "true".toList rest
  simp only [show "true".toList = ['t', 'r', 'u', 'e'] from rfl, List.cons_append,
    List.nil_append] at ht
  simp [parse_boolean, ht]

theorem parse_boolean_false (rest : List Char) :
    parse_boolean ("false".toList ++ rest) = some (rest, false) := by
  have h1 : tagP "true".toList ("false".toList ++ rest) = none :=
    tagP_ne_head _ _ (by decide)
  have hf := tagP_self_append "false".toList rest
  simp only [show "true".toList = ['t', 'r', 'u', 'e'] from rfl,
    show "false".toList = ['f', 'a', 'l', 's', 'e'] from rfl, List.cons_append,
    List.nil_append] at h1 hf
  simp [parse_boolean, h1, hf]

theorem parse_boolean_ne_head {c : Char} (r : List Char) (h1 : ¬ c = 't') (h2 : ¬ c = 'f') :
    parse_boolean (c :: r) = none := by
  have ht : tagP "true".toList (c :: r) = none := tagP_ne_head _ _ h1
  have hf : tagP "false".toList (c :: r) = none := tagP_ne_head _ _ h2
  simp only [show "true".toList = ['t', 'r', 'u', 'e'] from rfl,
    show "false".toList = ['f', 'a', 'l', 's', 'e'] from rfl] at ht hf
  simp [parse_boolean, ht, hf]

theorem parse_boolean_nil : parse_boolean [] = none := rfl

theorem parse_null_ne_head {c : Char} (r : List Char) (h : ¬ c = 'n') :
    parse_null (c :: r) = none := by
  have hn : tagP "null".toList (c :: r) = none := tagP_ne_head _ _ h
  simp only [show "null".toList = ['n', 'u', 'l', 'l'] from rfl] at hn
  simp [parse_null, hn]

theorem parse_null_self (rest : List Char) :
    parse_null ("null".toList ++ rest) = some (rest, ()) := by
  have hn := tagP_self_append "null".toList rest
  simp only [show "null".toList = ['n', 'u', 'l', 'l'] from rfl, List.cons_append,
    List.nil_append] at hn
  simp [parse_null, hn]

theorem parse_null_nil : parse_null [] = none := rfl

theorem parse_object_with_ne_head (pv : List Char → Option (List Char × JsonValue))
    (fuel : Nat) {c : Char} (r : List Char) (hws : isWsChar c = false) (h : ¬ c = '{') :
    parse_object_with pv fuel (c :: r) = none := by
  simp [parse_object_with, multispace0_cons_nws r hws, charP_cons_ne r h]

theorem parse_object_with_nil (pv : List Char → Option (List Char × JsonValue))
    (fuel : Nat) : parse_object_with pv fuel [] = none := rfl

theorem parse_array_with_ne_head (pv : List Char → Option (List Char × JsonValue))
    (fuel : Nat) {c : Char} (r : List Char) (hws : isWsChar c = false) (h : ¬ c = '[') :
    parse_array_with pv fuel (c :: r) = none := by
  simp [parse_array_with, multispace0_cons_nws r hws, charP_cons_ne r h]

theorem parse_array_with_nil (pv : List Char → Option (List Char × JsonValue))
    (fuel : Nat) : parse_array_with pv fuel [] = none := rfl

theorem sepLoopF_zero {α : Type} (sep : List Char → Option (List Char))
    (elem : List Char → Option (List Char × α)) (s : List Char) (acc : List α) :
    sepLoopF 0 sep elem s acc = none := rfl

theorem sepLoopF_succ {α : Type} (fuel : Nat) (sep : List Char → Option (List Char))
    (elem : List Char → Option (List Char × α)) (s : List Char) (acc : List α) :
    sepLoopF (fuel + 1) sep elem s acc =
      match sep s with
      | none => some (s, acc)
      | some s1 =>
        if s1.length = s.length then none
        else
          match elem s1 with
          | none => some (s, acc)
          | some (s2, a) => sepLoopF fuel sep elem s2 (acc ++ [a]) := by
  rw [sepLoopF]

theorem sepLoopF_sep_none {α : Type} (fuel : Nat) (sep : List Char → Option (List Char))
    (elem : List Char → Option (List Char × α)) (s : List Char) (acc : List α)
    (hsep : sep s = none) : sepLoopF (fuel + 1) sep elem s acc = some (s, acc) := by
  simp only [sepLoopF_succ, hsep]

theorem sepLoopF_sep_some {α : Type} (fuel : Nat) (sep : List Char → Option (List Char))
    (elem : List Char → Option (List Char × α)) (s s1 : List Char) (acc : List α)
    (hsep : sep s = some s1) (hlen : ¬ s1.length = s.length) :
    sepLoopF (fuel + 1) sep elem s acc =
      match elem s1 with
      | none => some (s, acc)
      | some (s2, a) => sepLoopF fuel sep elem s2 (acc ++ [a]) := by
  simp only [sepLoopF_succ, hsep]
  rw [if_neg hlen]

theorem comma_sep_comma (r : List Char) : comma_sep (',' :: r) = some r := by
  have h : isWsChar ',' = false := rfl
  simp [comma_sep, multispace0_cons_nws r h, charP_cons_self]

theorem parse_valueF_zero (s : List Char) : parse_valueF 0 s = none := rfl

theorem parse_valueF_succ (fuel : Nat) (s : List Char) :
    parse_valueF (fuel + 1) s =
      match parse_object_with (parse_valueF fuel) fuel (multispace0 s) with
      | some r => some r
      | none =>
        match parse_array_with (parse_valueF fuel) fuel (multispace0 s) with
        | some r => some r
        | none =>
          match parse_string (multispace0 s) with
          | some (r, str) => some (r, JsonValue.String str)
          | none =>
            match parse_number (multispace0 s) with
            | some (r, q) => some (r, JsonValue.Number q)
            | none =>
              match parse_boolean (multispace0 s) with
              | some (r, b) => some (r, JsonValue.Boolean b)
              | none =>
                match parse_null (multispace0 s) with
                | some (r, _) => some (r, JsonValue.Null)
                | none => none := by
  rw [parse_valueF]

/-- Head-character dispatch of `parse_value`: when the first significant character opens
no object, array, string or number, the alternation reaches the boolean and null parsers. -/
theorem parse_valueF_ne_all {c : Char} (f : Nat) (r : List Char)
    (hws : isWsChar c = false) (hobj : ¬ c = '{') (harr : ¬ c = '[') (hstr : ¬ c = '"')
    (hdig : c.isDigit = false) :
    parse_valueF (f + 1) (c :: r) =
      match parse_boolean (c :: r) with
      | some (rr, b) => some (rr, JsonValue.Boolean b)
      | none =>
        match parse_null (c :: r) with
        | some (rr, _) => some (rr, JsonValue.Null)
        | none => none := by
  rw [parse_valueF_succ, multispace0_cons_nws r hws]
  rw [parse_object_with_ne_head _ _ r hws hobj, parse_array_with_ne_head _ _ r hws harr,
    parse_string_ne_head r hstr, parse_number_nondigit r hdig]

theorem parse_boolean_true_cons (rest : List Char) :
    parse_boolean ('t' :: 'r' :: 'u' :: 'e' :: rest) = some (rest, true) := by
  have h := parse_boolean_true rest
  simpa using h

theorem parse_boolean_false_cons (rest : List Char) :
    parse_boolean ('f' :: 'a' :: 'l' :: 's' :: 'e' :: rest) = some (rest, false) := by
  have h := parse_boolean_false rest
  simpa using h

theorem parse_valueF_true (f : Nat) (rest : List Char) :
    parse_valueF (f + 1) ('t' :: 'r' :: 'u' :: 'e' :: rest) =
      some (rest, JsonValue.Boolean true) := by
  rw [@parse_valueF_ne_all 't' f _ rfl (by decide) (by decide) (by decide) (by decide),
    parse_boolean_true_cons]

theorem parse_valueF_false (f : Nat) (rest : List Char) :
    parse_valueF (f + 1) ('f' :: 'a' :: 'l' :: 's' :: 'e' :: rest) =
      some (rest, JsonValue.Boolean false) := by
  rw [@parse_valueF_ne_all 'f' f _ rfl (by decide) (by decide) (by decide) (by decide),
    parse_boolean_false_cons]

/-! ## Claim C8: duplicate keys are preserved in encounter order -/

/-- The canonical rendering of a boolean JSON value. -/
def renderBool (b : Bool) : List Char := if b then "true".toList else "false".toList

/-- The canonical rendering of one `"key":value` member with a boolean value. -/
def renderPair (p : List Char × Bool) : List Char :=
  '"' :: p.1 ++ '"' :: ':' :: renderBool p.2

/-- The rendering of the members after the first, each preceded by its comma. -/
def renderTail : List (List Char × Bool) → List Char
  | [] => []
  | p :: ps => ',' :: (renderPair p ++ renderTail ps)

/-- A usable key: nonempty, free of quotes and backslashes. -/
def keyOkB (k : List Char) : Bool := !k.isEmpty && k.all fun c => !(c = '"' || c = '\\')

theorem keyOkB_iff {k : List Char} :
    keyOkB k = true ↔ k ≠ [] ∧ ∀ c ∈ k, ¬ c = '"' ∧ ¬ c = '\\' := by
  simp [keyOkB, List.all_eq_true, List.isEmpty_iff, not_or]

theorem escaped_go_run (u : List Char) (rest : List Char)
    (hu : ∀ c ∈ u, ¬ c = '"' ∧ ¬ c = '\\') :
    ∀ n : Nat, 0 < n + u.length → escaped_go (u ++ '"' :: rest) n = some (n + u.length) := by
  induction u with
  | nil =>
    intro n hpos
    simp only [List.nil_append, List.length_nil, Nat.add_zero] at hpos ⊢
    rw [escaped_go_quote, if_neg (by omega)]
  | cons c u ih =>
    intro n hpos
    have hc := hu c (List.mem_cons_self _ _)
    rw [List.cons_append, escaped_go_ord _ _ hc.1 hc.2,
      ih (fun x hx => hu x (List.mem_cons_of_mem c hx)) (n + 1) (by omega)]
    simp only [Option.some.injEq, List.length_cons]
    omega

/-- `parse_string` on a quoted ordinary-character key: returns the key and the tail. -/
theorem parse_string_key {k : List Char} (rest : List Char) (hne : k ≠ [])
    (hk : ∀ c ∈ k, ¬ c = '"' ∧ ¬ c = '\\') :
    parse_string ('"' :: (k ++ '"' :: rest)) = some (rest, k) := by
  have hpos : 0 < 0 + k.length := by
    cases k with
    | nil => exact absurd rfl hne
    | cons a l => simp
  have hg := escaped_go_run k rest hk 0 hpos
  rw [Nat.zero_add] at hg
  simp only [parse_string, charP_cons_self, escapedP, hg, List.take_left' rfl,
    List.drop_left' rfl]

/-- One member of the rendered object parses to its `(key, value)` pair. -/
theorem parse_pair_render (pv : List Char → Option (List Char × JsonValue))
    (hpv : ∀ (rest : List Char) (b : Bool),
      pv (renderBool b ++ rest) = some (rest, JsonValue.Boolean b))
    (k : List Char) (b : Bool) (rest : List Char)
    (hne : k ≠ []) (hk : ∀ c ∈ k, ¬ c = '"' ∧ ¬ c = '\\') :
    parse_pair_with pv (renderPair (k, b) ++ rest) =
      some (rest, (k, JsonValue.Boolean b)) := by
  have hs : renderPair (k, b) ++ rest =
      '"' :: (k ++ '"' :: (':' :: (renderBool b ++ rest))) := by
    simp [renderPair, List.cons_append, List.append_assoc]
  rw [hs]
  have hstr := parse_string_key (':' :: (renderBool b ++ rest)) hne hk
  have hcol : charP ':' (multispace0 (':' :: (renderBool b ++ rest))) =
      some (renderBool b ++ rest) := by
    rw [@multispace0_cons_nws ':' (renderBool b ++ rest) rfl, charP_cons_self]
  simp only [parse_pair_with, hstr, hcol, hpv rest b]

theorem renderTail_length_ge (ps : List (List Char × Bool)) :
    ps.length ≤ (renderTail ps).length := by
  induction ps with
  | nil => simp [renderTail]
  | cons p ps ih =>
    simp only [renderTail, List.length_cons, List.length_append]
    omega

/-- The separated-list loop over the rendered members collects them all, in order, and
stops at the closing brace. -/
theorem sepLoop_render (pv : List Char → Option (List Char × JsonValue))
    (hpv : ∀ (rest : List Char) (b : Bool),
      pv (renderBool b ++ rest) = some (rest, JsonValue.Boolean b))
    (ps : List (List Char × Bool)) :
    ∀ (f : Nat) (acc : List (List Char × JsonValue)) (rest : List Char),
      ps.length + 1 ≤ f → (∀ p ∈ ps, keyOkB p.1 = true) →
      sepLoopF f comma_sep (parse_pair_with pv) (renderTail ps ++ '}' :: rest) acc =
        some ('}' :: rest, acc ++ ps.map fun p => (p.1, JsonValue.Boolean p.2)) := by
  induction ps with
  | nil =>
    intro f acc rest hf _
    obtain ⟨f', rfl⟩ : ∃ g, f = g + 1 := ⟨f - 1, by omega⟩
    have hsep : comma_sep ('}' :: rest) = none := by
      rw [comma_sep, @multispace0_cons_nws '}' rest rfl, charP_cons_ne rest (by decide)]
    rw [show renderTail [] ++ '}' :: rest = '}' :: rest from rfl,
      sepLoopF_sep_none f' _ _ _ _ hsep]
    simp
  | cons p ps ih =>
    intro f acc rest hf hok
    obtain ⟨f', rfl⟩ : ∃ g, f = g + 1 := ⟨f - 1, by omega⟩
    have hkey := (keyOkB_iff.mp (hok p (List.mem_cons_self _ _)))
    obtain ⟨k, b⟩ := p
    have hin : renderTail ((k, b) :: ps) ++ '}' :: rest =
        ',' :: (renderPair (k, b) ++ (renderTail ps ++ '}' :: rest)) := by
      simp [renderTail, List.cons_append, List.append_assoc]
    have hlen : ¬ (renderPair (k, b) ++ (renderTail ps ++ '}' :: rest)).length =
        (',' :: (renderPair (k, b) ++ (renderTail ps ++ '}' :: rest))).length := by
      simp only [List.length_cons]
      omega
    rw [hin, sepLoopF_sep_some f' _ _ _ _ _ (comma_sep_comma _) hlen]
    simp only [parse_pair_render pv hpv k b _ hkey.1 hkey.2]
    rw [ih f' (acc ++ [(k, JsonValue.Boolean b)]) rest (by simpa using hf)
      (fun x hx => hok x (List.mem_cons_of_mem _ hx))]
    simp

theorem parse_valueF_renderBool (f : Nat) (rest : List Char) (b : Bool) :
    parse_valueF (f + 1) (renderBool b ++ rest) = some (rest, JsonValue.Boolean b) := by
  cases b
  · rw [show renderBool false ++ rest = 'f' :: 'a' :: 'l' :: 's' :: 'e' :: rest from rfl]
    exact parse_valueF_false f rest
  · rw [show renderBool true ++ rest = 't' :: 'r' :: 'u' :: 'e' :: rest from rfl]
    exact parse_valueF_true f rest

/-- Claim C8: duplicate keys are neither rejected, deduplicated nor merged.  For every
rendered object `{"k₀":v₀,"k₁":v₁,…}` (usable keys, boolean values, keys free to repeat —
nothing below requires distinctness), `parse_object` succeeds and returns one pair per
source pair, in encounter order. -/
theorem claim_C8 (p0 : List Char × Bool) (ps : List (List Char × Bool))
    (hok : ∀ p ∈ p0 :: ps, keyOkB p.1 = true) :
    parse_object ('{' :: (renderPair p0 ++ (renderTail ps ++ ['}']))) =
      some ([], JsonValue.Object ((p0 :: ps).map fun p => (p.1, JsonValue.Boolean p.2))) := by
  obtain ⟨k0, b0⟩ := p0
  have hkey0 := keyOkB_iff.mp (hok (k0, b0) (List.mem_cons_self _ _))
  set s : List Char := '{' :: (renderPair (k0, b0) ++ (renderTail ps ++ ['}'])) with hs
  have hm : multispace0 s = s := @multispace0_cons_nws '{' _ rfl
  have hFsucc : ∃ g, fuelFor s = g + 1 ∧ ps.length + 1 ≤ g := by
    refine ⟨4 * (multispace0 s).length + 3, by rw [fuelFor], ?_⟩
    have h1 := renderTail_length_ge ps
    have h2 : (renderTail ps).length ≤ (multispace0 s).length := by
      rw [hm, hs]
      simp only [List.length_cons, List.length_append]
      omega
    omega
  obtain ⟨F, hF, hFbound⟩ := hFsucc
  have hpv : ∀ (rest : List Char) (b : Bool),
      parse_valueF (fuelFor s) (renderBool b ++ rest) = some (rest, JsonValue.Boolean b) := by
    intro rest b
    rw [hF]
    exact parse_valueF_renderBool F rest b
  have hpair := parse_pair_render (parse_valueF (fuelFor s)) hpv k0 b0
    (renderTail ps ++ '}' :: []) hkey0.1 hkey0.2
  have hloop := sepLoop_render (parse_valueF (fuelFor s)) hpv ps (fuelFor s)
    [(k0, JsonValue.Boolean b0)] [] (by omega)
    (fun x hx => hok x (List.mem_cons_of_mem _ hx))
  rw [parse_object, parse_object_with, hm, hs, charP_cons_self]
  rw [show renderPair (k0, b0) ++ (renderTail ps ++ ['}']) =
    renderPair (k0, b0) ++ (renderTail ps ++ '}' :: []) from rfl]
  simp only [separated_list0F, hpair, hloop]
  rw [@multispace0_cons_nws '}' [] rfl, charP_cons_self]
  simp

theorem claim_C8_witness :
    parse_object "\x7b\"a\":true,\"a\":false\x7d".toList =
      some ([], JsonValue.Object [("a".toList, JsonValue.Boolean true),
        ("a".toList, JsonValue.Boolean false)]) := by
  rw [show "\x7b\"a\":true,\"a\":false\x7d".toList =
    '{' :: (renderPair ("a".toList, true) ++ (renderTail [("a".toList, false)] ++ ['}']))
    from by decide]
  rw [claim_C8 ("a".toList, true) [("a".toList, false)] (by decide)]
  rfl

/-! ## The remainder of every parser is a suffix of its input -/

theorem multispace0_suffix (s : List Char) : multispace0 s <:+ s :=
  List.dropWhile_suffix isWsChar

theorem charP_suffix {c : Char} {s r : List Char} (h : charP c s = some r) : r <:+ s := by
  cases s with
  | nil => simp [charP] at h
  | cons x rest =>
    simp only [charP] at h
    by_cases hx : x = c
    · simp only [hx, if_pos] at h
      injection h with h
      exact h ▸ List.suffix_cons x rest
    · simp only [if_neg hx] at h
      exact Option.noConfusion h

theorem escapedP_suffix {s r v : List Char} (h : escapedP s = some (r, v)) : r <:+ s := by
  unfold escapedP at h
  cases hg : escaped_go s 0 with
  | none => simp only [hg] at h; exact Option.noConfusion h
  | some n =>
    simp only [hg, Option.some.injEq, Prod.mk.injEq] at h
    exact h.1 ▸ List.drop_suffix n s

theorem parse_string_suffix {s r v : List Char} (h : parse_string s = some (r, v)) :
    r <:+ s := by
  unfold parse_string at h
  cases h1 : charP '"' s with
  | none => simp only [h1] at h; exact Option.noConfusion h
  | some s1 =>
    simp only [h1] at h
    cases h2 : escapedP s1 with
    | none => simp only [h2] at h; exact Option.noConfusion h
    | some p2 =>
      obtain ⟨s2, content⟩ := p2
      simp only [h2] at h
      cases h3 : charP '"' s2 with
      | none => simp only [h3] at h; exact Option.noConfusion h
      | some s3 =>
        simp only [h3, Option.some.injEq, Prod.mk.injEq] at h
        exact h.1 ▸ ((charP_suffix h3).trans ((escapedP_suffix h2).trans (charP_suffix h1)))

theorem digit1_suffix {s r span : List Char} (h : digit1 s = some (r, span)) : r <:+ s := by
  obtain ⟨-, -, hr, -⟩ := digit1_inv h
  exact hr ▸ List.drop_suffix span.length s

theorem number_recognizer_suffix {s rem span : List Char}
    (h : number_recognizer s = some (rem, span)) : rem <:+ s := by
  unfold number_recognizer at h
  cases h1 : digit1 s with
  | none => simp only [h1] at h; exact Option.noConfusion h
  | some p1 =>
    obtain ⟨s1, ispan⟩ := p1
    simp only [h1] at h
    have hs1 : s1 <:+ s := digit1_suffix h1
    cases hp1 : parseF64 ispan with
    | none => simp only [hp1] at h; exact Option.noConfusion h
    | some q1 =>
      simp only [hp1] at h
      cases h3 : charP '.' s1 with
      | none =>
        simp only [h3, Option.some.injEq, Prod.mk.injEq] at h
        exact h.1 ▸ hs1
      | some s2 =>
        simp only [h3] at h
        have hs2 : s2 <:+ s := (charP_suffix h3).trans hs1
        cases h4 : digit1 s2 with
        | none =>
          simp only [h4, Option.some.injEq, Prod.mk.injEq] at h
          exact h.1 ▸ hs1
        | some p4 =>
          obtain ⟨s3, fspan⟩ := p4
          simp only [h4] at h
          cases hp4 : parseF64 fspan with
          | none =>
            simp only [hp4, Option.some.injEq, Prod.mk.injEq] at h
            exact h.1 ▸ hs1
          | some q4 =>
            simp only [hp4, Option.some.injEq, Prod.mk.injEq] at h
            exact h.1 ▸ ((digit1_suffix h4).trans hs2)

theorem parse_number_suffix {s r : List Char} {q : ℚ} (h : parse_number s = some (r, q)) :
    r <:+ s := by
  unfold parse_number at h
  cases hnr : number_recognizer s with
  | none => simp only [hnr] at h; exact Option.noConfusion h
  | some p =>
    obtain ⟨rem, span⟩ := p
    simp only [hnr] at h
    cases hp : parseF64 span with
    | none => simp only [hp] at h; exact Option.noConfusion h
    | some q0 =>
      simp only [hp, Option.some.injEq, Prod.mk.injEq] at h
      exact h.1 ▸ number_recognizer_suffix hnr

theorem tagP_suffix {t s r : List Char} (h : tagP t s = some r) : r <:+ s := by
  unfold tagP at h
  by_cases hp : t.isPrefixOf s
  · simp only [hp, if_pos, Option.some.injEq] at h
    exact h ▸ List.drop_suffix t.length s
  · simp only [if_neg hp] at h
    exact Option.noConfusion h

theorem parse_boolean_suffix {s r : List Char} {b : Bool}
    (h : parse_boolean s = some (r, b)) : r <:+ s := by
  unfold parse_boolean at h
  cases h1 : tagP "true".toList s with
  | some r1 =>
    simp only [h1, Option.some.injEq, Prod.mk.injEq] at h
    exact h.1 ▸ tagP_suffix h1
  | none =>
    simp only [h1] at h
    cases h2 : tagP "false".toList s with
    | some r2 =>
      simp only [h2, Option.some.injEq, Prod.mk.injEq] at h
      exact h.1 ▸ tagP_suffix h2
    | none => simp only [h2] at h; exact Option.noConfusion h

theorem parse_null_suffix {s r : List Char} {u : Unit} (h : parse_null s = some (r, u)) :
    r <:+ s := by
  unfold parse_null at h
  cases h1 : tagP "null".toList s with
  | some r1 =>
    simp only [h1, Option.map_some', Option.some.injEq, Prod.mk.injEq] at h
    exact h.1 ▸ tagP_suffix h1
  | none =>
    simp at h
    simp only [show "null".toList = ['n', 'u', 'l', 'l'] from rfl] at h1
    rw [h1] at h
    exact Option.noConfusion h

theorem comma_sep_suffix {s r : List Char} (h : comma_sep s = some r) : r <:+ s :=
  (charP_suffix h).trans (multispace0_suffix s)

theorem parse_pair_with_suffix {pv : List Char → Option (List Char × JsonValue)}
    (hpv : ∀ s r v, pv s = some (r, v) → r <:+ s) {s r : List Char}
    {p : List Char × JsonValue} (h : parse_pair_with pv s = some (r, p)) : r <:+ s := by
  unfold parse_pair_with at h
  cases h1 : parse_string s with
  | none => simp only [h1] at h; exact Option.noConfusion h
  | some p1 =>
    obtain ⟨s1, key⟩ := p1
    simp only [h1] at h
    cases h2 : charP ':' (multispace0 s1) with
    | none => simp only [h2] at h; exact Option.noConfusion h
    | some s2 =>
      simp only [h2] at h
      cases h3 : pv s2 with
      | none => simp only [h3] at h; exact Option.noConfusion h
      | some p3 =>
        obtain ⟨s3, v⟩ := p3
        simp only [h3, Option.some.injEq, Prod.mk.injEq] at h
        exact h.1 ▸ ((hpv s2 s3 v h3).trans
          (((charP_suffix h2).trans (multispace0_suffix s1)).trans (parse_string_suffix h1)))

theorem sepLoopF_suffix {α : Type} {sep : List Char → Option (List Char)}
    {elem : List Char → Option (List Char × α)}
    (hsep : ∀ s r, sep s = some r → r <:+ s)
    (helem : ∀ s r a, elem s = some (r, a) → r <:+ s) :
    ∀ (f : Nat) (s : List Char) (acc : List α) (r : List Char) (l : List α),
      sepLoopF f sep elem s acc = some (r, l) → r <:+ s := by
  intro f
  induction f with
  | zero => intro s acc r l h; exact Option.noConfusion h
  | succ f ih =>
    intro s acc r l h
    rw [sepLoopF_succ] at h
    cases h1 : sep s with
    | none =>
      simp only [h1, Option.some.injEq, Prod.mk.injEq] at h
      exact h.1 ▸ List.suffix_refl s
    | some s1 =>
      simp only [h1] at h
      by_cases hlen : s1.length = s.length
      · rw [if_pos hlen] at h
        exact Option.noConfusion h
      · rw [if_neg hlen] at h
        cases h2 : elem s1 with
        | none =>
          simp only [h2, Option.some.injEq, Prod.mk.injEq] at h
          exact h.1 ▸ List.suffix_refl s
        | some p2 =>
          obtain ⟨s2, a⟩ := p2
          simp only [h2] at h
          exact (ih s2 (acc ++ [a]) r l h).trans ((helem s1 s2 a h2).trans (hsep s s1 h1))

theorem separated_list0F_suffix {α : Type} {sep : List Char → Option (List Char)}
    {elem : List Char → Option (List Char × α)}
    (hsep : ∀ s r, sep s = some r → r <:+ s)
    (helem : ∀ s r a, elem s = some (r, a) → r <:+ s)
    {f : Nat} {s r : List Char} {l : List α}
    (h : separated_list0F f sep elem s = some (r, l)) : r <:+ s := by
  unfold separated_list0F at h
  cases h1 : elem s with
  | none =>
    simp only [h1, Option.some.injEq, Prod.mk.injEq] at h
    exact h.1 ▸ List.suffix_refl s
  | some p1 =>
    obtain ⟨s1, a⟩ := p1
    simp only [h1] at h
    exact (sepLoopF_suffix hsep helem f s1 [a] r l h).trans (helem s s1 a h1)

theorem parse_object_with_suffix {pv : List Char → Option (List Char × JsonValue)}
    (hpv : ∀ s r v, pv s = some (r, v) → r <:+ s) {f : Nat} {s r : List Char}
    {v : JsonValue} (h : parse_object_with pv f s = some (r, v)) : r <:+ s ∧ '}' ∈ s := by
  unfold parse_object_with at h
  cases h1 : charP '{' (multispace0 s) with
  | none => simp only [h1] at h; exact Option.noConfusion h
  | some s1 =>
    simp only [h1] at h
    have hs1 : s1 <:+ s := (charP_suffix h1).trans (multispace0_suffix s)
    cases h2 : separated_list0F f comma_sep (parse_pair_with pv) s1 with
    | none => simp only [h2] at h; exact Option.noConfusion h
    | some p2 =>
      obtain ⟨s2, pairs⟩ := p2
      simp only [h2] at h
      have hs2 : s2 <:+ s :=
        (separated_list0F_suffix (fun s r hr => comma_sep_suffix hr)
          (fun s r a ha => parse_pair_with_suffix hpv ha) h2).trans hs1
      cases h3 : charP '}' (multispace0 s2) with
      | none => simp only [h3] at h; exact Option.noConfusion h
      | some s3 =>
        simp only [h3, Option.some.injEq, Prod.mk.injEq] at h
        have hmem : '}' ∈ s := by
          have hhead : ∃ t, multispace0 s2 = '}' :: t := by
            cases hm : multispace0 s2 with
            | nil => rw [hm] at h3; exact Option.noConfusion h3
            | cons x t =>
              rw [hm] at h3
              simp only [charP] at h3
              by_cases hx : x = '}'
              · exact ⟨t, by rw [hx]⟩
              · simp only [if_neg hx] at h3; exact Option.noConfusion h3
          obtain ⟨t, ht⟩ := hhead
          have : '}' ∈ multispace0 s2 := ht ▸ List.mem_cons_self '}' t
          exact hs2.subset ((multispace0_suffix s2).subset this)
        refine ⟨h.1 ▸ ?_, hmem⟩
        exact (charP_suffix h3).trans ((multispace0_suffix s2).trans hs2)

theorem parse_array_with_suffix {pv : List Char → Option (List Char × JsonValue)}
    (hpv : ∀ s r v, pv s = some (r, v) → r <:+ s) {f : Nat} {s r : List Char}
    {v : JsonValue} (h : parse_array_with pv f s = some (r, v)) : r <:+ s ∧ ']' ∈ s := by
  unfold parse_array_with at h
  cases h1 : charP '[' (multispace0 s) with
  | none => simp only [h1] at h; exact Option.noConfusion h
  | some s1 =>
    simp only [h1] at h
    have hs1 : s1 <:+ s := (charP_suffix h1).trans (multispace0_suffix s)
    cases h2 : separated_list0F f comma_sep pv s1 with
    | none => simp only [h2] at h; exact Option.noConfusion h
    | some p2 =>
      obtain ⟨s2, elems⟩ := p2
      simp only [h2] at h
      have hs2 : s2 <:+ s :=
        (separated_list0F_suffix (fun s r hr => comma_sep_suffix hr)
          (fun s r a ha => hpv s r a ha) h2).trans hs1
      cases h3 : charP ']' (multispace0 s2) with
      | none => simp only [h3] at h; exact Option.noConfusion h
      | some s3 =>
        simp only [h3, Option.some.injEq, Prod.mk.injEq] at h
        have hmem : ']' ∈ s := by
          have hhead : ∃ t, multispace0 s2 = ']' :: t := by
            cases hm : multispace0 s2 with
            | nil => rw [hm] at h3; exact Option.noConfusion h3
            | cons x t =>
              rw [hm] at h3
              simp only [charP] at h3
              by_cases hx : x = ']'
              · exact ⟨t, by rw [hx]⟩
              · simp only [if_neg hx] at h3; exact Option.noConfusion h3
          obtain ⟨t, ht⟩ := hhead
          have : ']' ∈ multispace0 s2 := ht ▸ List.mem_cons_self ']' t
          exact hs2.subset ((multispace0_suffix s2).subset this)
        refine ⟨h.1 ▸ ?_, hmem⟩
        exact (charP_suffix h3).trans ((multispace0_suffix s2).trans hs2)

theorem parse_valueF_suffix :
    ∀ (f : Nat) (s r : List Char) (v : JsonValue),
      parse_valueF f s = some (r, v) → r <:+ s := by
  intro f
  induction f with
  | zero => intro s r v h; exact Option.noConfusion h
  | succ f ih =>
    intro s r v h
    rw [parse_valueF_succ] at h
    have hms : multispace0 s <:+ s := multispace0_suffix s
    cases hobj : parse_object_with (parse_valueF f) f (multispace0 s) with
    | some p =>
      obtain ⟨rr, vv⟩ := p
      simp only [hobj, Option.some.injEq, Prod.mk.injEq] at h
      exact h.1 ▸ ((parse_object_with_suffix ih hobj).1.trans hms)
    | none =>
      simp only [hobj] at h
      cases harr : parse_array_with (parse_valueF f) f (multispace0 s) with
      | some p =>
        obtain ⟨rr, vv⟩ := p
        simp only [harr, Option.some.injEq, Prod.mk.injEq] at h
        exact h.1 ▸ ((parse_array_with_suffix ih harr).1.trans hms)
      | none =>
        simp only [harr] at h
        cases hstr : parse_string (multispace0 s) with
        | some p =>
          obtain ⟨rr, str⟩ := p
          simp only [hstr, Option.some.injEq, Prod.mk.injEq] at h
          exact h.1 ▸ ((parse_string_suffix hstr).trans hms)
        | none =>
          simp only [hstr] at h
          cases hnum : parse_number (multispace0 s) with
          | some p =>
            obtain ⟨rr, q⟩ := p
            simp only [hnum, Option.some.injEq, Prod.mk.injEq] at h
            exact h.1 ▸ ((parse_number_suffix hnum).trans hms)
          | none =>
            simp only [hnum] at h
            cases hb : parse_boolean (multispace0 s) with
            | some p =>
              obtain ⟨rr, b⟩ := p
              simp only [hb, Option.some.injEq, Prod.mk.injEq] at h
              exact h.1 ▸ ((parse_boolean_suffix hb).trans hms)
            | none =>
              simp only [hb] at h
              cases hn : parse_null (multispace0 s) with
              | some p =>
                obtain ⟨rr, u⟩ := p
                simp only [hn, Option.some.injEq, Prod.mk.injEq] at h
                exact h.1 ▸ ((parse_null_suffix hn).trans hms)
              | none => simp only [hn] at h; exact Option.noConfusion h

/-! ## Claim C6: malformed inputs fail cleanly -/

/-- Claim C6: malformed inputs yield a typed parse failure (`none` in this embedding, the
`Err` value in the source), never a partial result — and, the embedding being a total
function, never a crash.  The three malformed families of the claim: an unterminated
string (no closing quote anywhere) makes `parse_string` fail; an object (resp. array)
opener whose input contains no `}` (resp. `]`) makes the entry point fail; a non-digit
where a number is expected makes `parse_number` fail. -/
theorem claim_C6 :
    (∀ s : List Char, '"' ∉ s → parse_string ('"' :: s) = none) ∧
    (∀ s : List Char, (multispace0 s).head? = some '{' → '}' ∉ s → parse_json s = none) ∧
    (∀ s : List Char, (multispace0 s).head? = some '[' → ']' ∉ s → parse_json s = none) ∧
    (∀ (c : Char) (r : List Char), c.isDigit = false → parse_number (c :: r) = none) := by
  refine ⟨?_, ?_, ?_, fun c r h => parse_number_nondigit r h⟩
  · intro s hq
    cases hg : escaped_go s 0 with
    | none => simp only [parse_string, charP_cons_self, escapedP, hg]
    | some n =>
      cases hd : s.drop n with
      | nil => simp only [parse_string, charP_cons_self, escapedP, hg, hd, charP_nil]
      | cons c r =>
        have hcm : c ∈ s := List.drop_subset n s (by rw [hd]; exact List.mem_cons_self c r)
        have hc : ¬ c = '"' := fun hh => hq (hh ▸ hcm)
        simp only [parse_string, charP_cons_self, escapedP, hg, hd, charP_cons_ne r hc]
  · intro s hh hm
    obtain ⟨t', ht⟩ : ∃ t', multispace0 s = '{' :: t' := by
      cases hx : multispace0 s with
      | nil => rw [hx] at hh; exact Option.noConfusion hh
      | cons x t =>
        rw [hx] at hh
        injection hh with hh
        exact ⟨t, by rw [hh]⟩
    unfold parse_json parse_value
    rw [ht]
    obtain ⟨F, hF⟩ : ∃ g, fuelFor ('{' :: t') = g + 1 := ⟨4 * ('{' :: t').length + 3, by
      rw [fuelFor, @multispace0_cons_nws '{' t' rfl]⟩
    rw [hF, parse_valueF_succ, @multispace0_cons_nws '{' t' rfl]
    cases hobj : parse_object_with (parse_valueF F) F ('{' :: t') with
    | some p =>
      obtain ⟨r, v⟩ := p
      have hmem : '}' ∈ '{' :: t' :=
        (parse_object_with_suffix (fun s r v h => parse_valueF_suffix F s r v h) hobj).2
      have hsub : ('{' :: t') <:+ s := ht ▸ multispace0_suffix s
      exact absurd (hsub.subset hmem) hm
    | none =>
      have harr := @parse_array_with_ne_head (parse_valueF F) F '{' t' rfl (by decide)
      have hstr := @parse_string_ne_head '{' t' (by decide)
      have hnum := @parse_number_nondigit '{' t' (by decide)
      have hb := @parse_boolean_ne_head '{' t' (by decide) (by decide)
      have hn := @parse_null_ne_head '{' t' (by decide)
      simp only [hobj, harr, hstr, hnum, hb, hn]
  · intro s hh hm
    obtain ⟨t', ht⟩ : ∃ t', multispace0 s = '[' :: t' := by
      cases hx : multispace0 s with
      | nil => rw [hx] at hh; exact Option.noConfusion hh
      | cons x t =>
        rw [hx] at hh
        injection hh with hh
        exact ⟨t, by rw [hh]⟩
    unfold parse_json parse_value
    rw [ht]
    obtain ⟨F, hF⟩ : ∃ g, fuelFor ('[' :: t') = g + 1 := ⟨4 * ('[' :: t').length + 3, by
      rw [fuelFor, @multispace0_cons_nws '[' t' rfl]⟩
    rw [hF, parse_valueF_succ, @multispace0_cons_nws '[' t' rfl]
    have hobj := @parse_object_with_ne_head (parse_valueF F) F '[' t' rfl (by decide)
    rw [hobj]
    cases harr : parse_array_with (parse_valueF F) F ('[' :: t') with
    | some p =>
      obtain ⟨r, v⟩ := p
      have hmem : ']' ∈ '[' :: t' :=
        (parse_array_with_suffix (fun s r v h => parse_valueF_suffix F s r v h) harr).2
      have hsub : ('[' :: t') <:+ s := ht ▸ multispace0_suffix s
      exact absurd (hsub.subset hmem) hm
    | none =>
      have hstr := @parse_string_ne_head '[' t' (by decide)
      have hnum := @parse_number_nondigit '[' t' (by decide)
      have hb := @parse_boolean_ne_head '[' t' (by decide) (by decide)
      have hn := @parse_null_ne_head '[' t' (by decide)
      simp only [harr, hstr, hnum, hb, hn]

theorem claim_C6_witness :
    parse_string ('"' :: "abc".toList) = none ∧
    parse_json "\x7b\"a\":1".toList = none ∧
    parse_json "[1,2".toList = none ∧
    parse_number ('x' :: "7".toList) = none :=
  ⟨claim_C6.1 "abc".toList (by decide),
    claim_C6.2.1 "\x7b\"a\":1".toList (by decide) (by decide),
    claim_C6.2.2.1 "[1,2".toList (by decide) (by decide),
    claim_C6.2.2.2 'x' "7".toList (by decide)⟩

/-! ## Appending input past a successful parse (infrastructure for claim C5) -/

/-- Trailing text whose first character can extend no just-finished numeric token:
not a digit and not a decimal point. -/
def headSafeB (t : List Char) : Bool :=
  match t with
  | [] => true
  | c :: _ => !c.isDigit && !(c = '.')

theorem headSafeB_head {t : List Char} {c : Char} (h : headSafeB t = true)
    (hc : t.head? = some c) : c.isDigit = false ∧ ¬ c = '.' := by
  cases t with
  | nil => exact Option.noConfusion hc
  | cons x r =>
    injection hc with hc
    subst hc
    simpa [headSafeB, Bool.and_eq_true] using h

theorem multispace0_idem (s : List Char) : multispace0 (multispace0 s) = multispace0 s := by
  cases hm : multispace0 s with
  | nil => rfl
  | cons c r =>
    have h := List.head?_dropWhile_not isWsChar s
    have hm' : s.dropWhile isWsChar = c :: r := hm
    rw [hm'] at h
    simp only [List.head?_cons] at h
    exact multispace0_cons_nws r h

theorem multispace0_head_not_ws {s : List Char} {c : Char}
    (h : (multispace0 s).head? = some c) : isWsChar c = false := by
  have hh := List.head?_dropWhile_not isWsChar s
  have h' : (s.dropWhile isWsChar).head? = some c := h
  rw [h'] at hh
  simpa using hh

theorem multispace0_append_of_ne_nil {s : List Char} (t : List Char)
    (h : multispace0 s ≠ []) : multispace0 (s ++ t) = multispace0 s ++ t := by
  induction s with
  | nil => exact absurd rfl h
  | cons c s ih =>
    by_cases hc : isWsChar c = true
    · rw [List.cons_append, multispace0_cons_ws _ hc, multispace0_cons_ws s hc]
      rw [multispace0_cons_ws s hc] at h
      exact ih h
    · rw [List.cons_append, multispace0_cons_nws _ (by simpa using hc),
        multispace0_cons_nws s (by simpa using hc), List.cons_append]

theorem multispace0_ne_nil_of_head {s : List Char} {c : Char}
    (h : (multispace0 s).head? = some c) : multispace0 s ≠ [] := by
  intro hx
  rw [hx] at h
  exact Option.noConfusion h

/-- The first character of the raw input is the first significant character or
whitespace. -/
theorem head_ne_of_multispace0_head {s : List Char} {c d : Char}
    (h : (multispace0 s).head? = some c) (hcd : ¬ c = d) (hd : isWsChar d = false) :
    ∀ x r, s = x :: r → ¬ x = d := by
  intro x r hs hxd
  subst hxd
  subst hs
  by_cases hw : isWsChar x = true
  · rw [hw] at hd
    exact Bool.noConfusion hd
  · rw [multispace0_cons_nws r (by simpa using hw)] at h
    injection h with h
    exact hcd h.symm

theorem charP_decomp {c : Char} {s r : List Char} (h : charP c s = some r) : s = c :: r := by
  cases s with
  | nil => exact Option.noConfusion h
  | cons x rest =>
    simp only [charP] at h
    by_cases hx : x = c
    · subst hx
      simp only [if_pos] at h
      injection h with h
      rw [h]
    · rw [if_neg hx] at h
      exact Option.noConfusion h

theorem charP_append {c : Char} {s r : List Char} (t : List Char)
    (h : charP c s = some r) : charP c (s ++ t) = some (r ++ t) := by
  rw [charP_decomp h, List.cons_append, charP_cons_self]

theorem tagP_decomp {w s r : List Char} (h : tagP w s = some r) : s = w ++ r := by
  unfold tagP at h
  by_cases hp : w.isPrefixOf s
  · simp only [hp, if_pos, Option.some.injEq] at h
    have hpre : w <+: s := by
      rw [← List.isPrefixOf_iff_prefix]
      exact hp
    obtain ⟨u, hu⟩ := hpre
    rw [← hu, List.drop_left] at h
    rw [← hu, h]
  · rw [if_neg hp] at h
    exact Option.noConfusion h

theorem tagP_append {w s r : List Char} (t : List Char) (h : tagP w s = some r) :
    tagP w (s ++ t) = some (r ++ t) := by
  rw [tagP_decomp h, List.append_assoc, tagP_self_append]

theorem parse_boolean_append {s r : List Char} {b : Bool} (t : List Char)
    (h : parse_boolean s = some (r, b)) : parse_boolean (s ++ t) = some (r ++ t, b) := by
  unfold parse_boolean at h ⊢
  cases h1 : tagP "true".toList s with
  | some r1 =>
    rw [h1] at h
    injection h with h
    obtain ⟨hr, hb⟩ : r1 = r ∧ true = b := by cases h; exact ⟨rfl, rfl⟩
    rw [tagP_append t h1, hr]
    rw [← hb]
  | none =>
    rw [h1] at h
    cases h2 : tagP "false".toList s with
    | none => rw [h2] at h; exact Option.noConfusion h
    | some r2 =>
      rw [h2] at h
      injection h with h
      obtain ⟨hr, hb⟩ : r2 = r ∧ false = b := by cases h; exact ⟨rfl, rfl⟩
      have hdec : s = "false".toList ++ r2 := tagP_decomp h2
      have h1t : tagP "true".toList (s ++ t) = none := by
        rw [hdec, List.append_assoc]
        rw [show "false".toList ++ (r2 ++ t) = 'f' :: ("alse".toList ++ (r2 ++ t)) from rfl]
        exact tagP_ne_head _ _ (by decide)
      rw [h1t, tagP_append t h2, hr, ← hb]

theorem parse_null_append {s r : List Char} {u : Unit} (t : List Char)
    (h : parse_null s = some (r, u)) : parse_null (s ++ t) = some (r ++ t, u) := by
  unfold parse_null at h ⊢
  cases h1 : tagP "null".toList s with
  | none => rw [h1] at h; exact Option.noConfusion h
  | some r1 =>
    rw [h1] at h
    simp only [Option.map_some', Option.some.injEq, Prod.mk.injEq] at h
    rw [tagP_append t h1, Option.map_some']
    rw [h.1]

theorem parse_string_head {s : List Char} {x : List Char × List Char}
    (h : parse_string s = some x) : ∃ r, s = '"' :: r := by
  unfold parse_string at h
  cases h1 : charP '"' s with
  | none => rw [h1] at h; exact Option.noConfusion h
  | some s1 => exact ⟨s1, charP_decomp h1⟩

theorem parse_boolean_head {s : List Char} {x : List Char × Bool}
    (h : parse_boolean s = some x) : ∃ c r, s = c :: r ∧ (c = 't' ∨ c = 'f') := by
  unfold parse_boolean at h
  cases h1 : tagP "true".toList s with
  | some r1 =>
    refine ⟨'t', "rue".toList ++ r1, ?_, Or.inl rfl⟩
    have := tagP_decomp h1
    simpa using this
  | none =>
    rw [h1] at h
    cases h2 : tagP "false".toList s with
    | none => rw [h2] at h; exact Option.noConfusion h
    | some r2 =>
      refine ⟨'f', "alse".toList ++ r2, ?_, Or.inr rfl⟩
      have := tagP_decomp h2
      simpa using this

theorem parse_null_head {s : List Char} {x : List Char × Unit}
    (h : parse_null s = some x) : ∃ r, s = 'n' :: r := by
  unfold parse_null at h
  cases h1 : tagP "null".toList s with
  | none => rw [h1] at h; exact Option.noConfusion h
  | some r1 =>
    refine ⟨"ull".toList ++ r1, ?_⟩
    have := tagP_decomp h1
    simpa using this

theorem escaped_go_ge_aux :
    ∀ (k : Nat) (s : List Char), s.length ≤ k →
      ∀ n m : Nat, escaped_go s n = some m → n ≤ m ∧ m - n ≤ s.length := by
  intro k
  induction k with
  | zero =>
    intro s hs n m h
    have hnil : s = [] := List.length_eq_zero.mp (Nat.le_zero.mp hs)
    subst hnil
    injection h with h
    omega
  | succ k ih =>
    intro s hs n m h
    cases s with
    | nil =>
      injection h with h
      simp only [List.length_nil]
      omega
    | cons c rest =>
      simp only [List.length_cons] at hs
      by_cases hq : c = '"'
      · subst hq
        rw [escaped_go_quote] at h
        by_cases hn : n = 0
        · rw [if_pos hn] at h; exact Option.noConfusion h
        · rw [if_neg hn] at h
          injection h with h
          simp only [List.length_cons]
          omega
      · by_cases hb : c = '\\'
        · subst hb
          cases rest with
          | nil => exact absurd h (by rw [escaped_go_esc_nil]; simp)
          | cons e rest2 =>
            by_cases he : e = '"'
            · subst he
              rw [escaped_go_esc_quote] at h
              have := ih rest2 (by simp at hs ⊢; omega) (n + 2) m h
              simp only [List.length_cons]
              omega
            · rw [escaped_go_esc_other _ _ he] at h
              exact Option.noConfusion h
        · rw [escaped_go_ord _ _ hq hb] at h
          have := ih rest (by omega) (n + 1) m h
          simp only [List.length_cons]
          omega

theorem escaped_go_bounds {s : List Char} {n m : Nat} (h : escaped_go s n = some m) :
    n ≤ m ∧ m - n ≤ s.length :=
  escaped_go_ge_aux s.length s (Nat.le_refl _) n m h

theorem escaped_go_append_aux :
    ∀ (k : Nat) (s : List Char), s.length ≤ k →
      ∀ (n m : Nat) (t : List Char), escaped_go s n = some m →
        (s.drop (m - n)).head? = some '"' → escaped_go (s ++ t) n = some m := by
  intro k
  induction k with
  | zero =>
    intro s hs n m t h hq
    have hnil : s = [] := List.length_eq_zero.mp (Nat.le_zero.mp hs)
    subst hnil
    simp at hq
  | succ k ih =>
    intro s hs n m t h hq
    cases s with
    | nil => simp at hq
    | cons c rest =>
      simp only [List.length_cons] at hs
      by_cases hcq : c = '"'
      · subst hcq
        rw [escaped_go_quote] at h
        by_cases hn : n = 0
        · rw [if_pos hn] at h; exact Option.noConfusion h
        · rw [if_neg hn] at h
          injection h with h
          subst h
          rw [List.cons_append, escaped_go_quote, if_neg hn]
      · by_cases hcb : c = '\\'
        · subst hcb
          cases rest with
          | nil => exact absurd h (by rw [escaped_go_esc_nil]; simp)
          | cons e rest2 =>
            by_cases he : e = '"'
            · subst he
              rw [escaped_go_esc_quote] at h
              have hge := (escaped_go_bounds h).1
              have hdq : (rest2.drop (m - (n + 2))).head? = some '"' := by
                have hmn : m - n = (m - (n + 2)) + 2 := by omega
                rw [hmn] at hq
                simpa using hq
              have := ih rest2 (by simp at hs ⊢; omega) (n + 2) m t h hdq
              rw [List.cons_append, List.cons_append, escaped_go_esc_quote]
              exact this
            · rw [escaped_go_esc_other _ _ he] at h
              exact Option.noConfusion h
        · rw [escaped_go_ord _ _ hcq hcb] at h
          have hge := (escaped_go_bounds h).1
          have hdq : (rest.drop (m - (n + 1))).head? = some '"' := by
            have hmn : m - n = (m - (n + 1)) + 1 := by omega
            rw [hmn] at hq
            simpa using hq
          have := ih rest (by omega) (n + 1) m t h hdq
          rw [List.cons_append, escaped_go_ord _ _ hcq hcb]
          exact this

theorem escapedP_append {s s2 v : List Char} (t : List Char) (h : escapedP s = some (s2, v))
    (hq : s2.head? = some '"') : escapedP (s ++ t) = some (s2 ++ t, v) := by
  unfold escapedP at h ⊢
  cases hg : escaped_go s 0 with
  | none => rw [hg] at h; exact Option.noConfusion h
  | some m =>
    rw [hg] at h
    injection h with h
    obtain ⟨h2, hv⟩ : s2 = s.drop m ∧ v = s.take m := by cases h; exact ⟨rfl, rfl⟩
    have hle : m ≤ s.length := by
      have := (escaped_go_bounds hg).2
      omega
    have hga := escaped_go_append_aux s.length s (Nat.le_refl _) 0 m t hg
      (by rw [Nat.sub_zero, ← h2]; exact hq)
    simp only [hga, List.drop_append_of_le_length hle, List.take_append_of_le_length hle]
    rw [← h2, ← hv]

theorem parse_string_append {s r v : List Char} (t : List Char)
    (h : parse_string s = some (r, v)) : parse_string (s ++ t) = some (r ++ t, v) := by
  unfold parse_string at h ⊢
  cases h1 : charP '"' s with
  | none => rw [h1] at h; exact Option.noConfusion h
  | some s1 =>
    simp only [h1] at h
    cases h2 : escapedP s1 with
    | none => simp only [h2] at h; exact Option.noConfusion h
    | some p2 =>
      obtain ⟨s2, content⟩ := p2
      simp only [h2] at h
      cases h3 : charP '"' s2 with
      | none => simp only [h3] at h; exact Option.noConfusion h
      | some s3 =>
        simp only [h3, Option.some.injEq, Prod.mk.injEq] at h
        have hdec1 : s = '"' :: s1 := charP_decomp h1
        have hq2 : s2.head? = some '"' := by rw [charP_decomp h3]; rfl
        rw [hdec1, List.cons_append, charP_cons_self]
        simp only [escapedP_append t h2 hq2, charP_append t h3, Option.some.injEq,
          Prod.mk.injEq]
        exact ⟨h.1 ▸ rfl, h.2⟩

theorem drop_length_takeWhile (p : Char → Bool) (s : List Char) :
    s.drop (s.takeWhile p).length = s.dropWhile p := by
  have key : ∀ u v : List Char, u ++ v = s → s.drop u.length = v := by
    intro u v huv
    rw [← huv, List.drop_left]
  exact key _ _ (List.takeWhile_append_dropWhile p s)

theorem digit1_decomp {s r span : List Char} (h : digit1 s = some (r, span)) :
    s = span ++ r ∧ r = s.dropWhile Char.isDigit ∧ span ≠ [] ∧
      (∀ c ∈ span, c.isDigit = true) := by
  obtain ⟨hne, hdig, hr, hspan⟩ := digit1_inv h
  have hrd : r = s.dropWhile Char.isDigit := by
    rw [hr, hspan, drop_length_takeWhile]
  refine ⟨?_, hrd, hne, hdig⟩
  rw [hrd, hspan, List.takeWhile_append_dropWhile]

theorem digit1_rest_head {s r span : List Char} {c : Char} (h : digit1 s = some (r, span))
    (hc : r.head? = some c) : c.isDigit = false := by
  obtain ⟨-, hrd, -, -⟩ := digit1_decomp h
  have hh := List.head?_dropWhile_not Char.isDigit s
  rw [← hrd, hc] at hh
  simpa using hh

theorem digit1_none_cons {c : Char} {r : List Char} (h : digit1 (c :: r) = none) :
    c.isDigit = false := by
  by_cases hc : c.isDigit = true
  · rw [show digit1 (c :: r) =
      some ((c :: r).drop ((c :: r).takeWhile Char.isDigit).length,
        (c :: r).takeWhile Char.isDigit) from by
        unfold digit1
        rw [if_neg ?_]
        rw [List.takeWhile_cons, hc]
        simp [List.isEmpty]] at h
    exact Option.noConfusion h
  · simpa using hc

theorem charP_none_cons {c x : Char} {r : List Char} (h : charP c (x :: r) = none) :
    ¬ x = c := by
  intro hx
  subst hx
  rw [charP_cons_self] at h
  exact Option.noConfusion h

theorem digit1_append_stop2 {s r1 span : List Char} {c : Char} (t : List Char)
    (h : digit1 s = some (c :: r1, span)) :
    digit1 (s ++ t) = some (c :: (r1 ++ t), span) := by
  obtain ⟨hs_eq, -, hne, hdig⟩ := digit1_decomp h
  have hc : c.isDigit = false := digit1_rest_head h rfl
  rw [hs_eq, List.append_assoc, List.cons_append]
  exact digit1_stop hne hdig hc

theorem digit1_append_empty {s span : List Char} (t : List Char)
    (h : digit1 s = some ([], span))
    (ht : ∀ c, t.head? = some c → c.isDigit = false) :
    digit1 (s ++ t) = some (t, span) := by
  obtain ⟨hs_eq, -, hne, hdig⟩ := digit1_decomp h
  rw [List.append_nil] at hs_eq
  subst hs_eq
  cases t with
  | nil => rw [List.append_nil]; exact h
  | cons c t1 => exact digit1_stop hne hdig (ht c rfl)

theorem parse_number_head {s : List Char} {x : List Char × ℚ}
    (h : parse_number s = some x) : ∃ c r, s = c :: r ∧ c.isDigit = true := by
  unfold parse_number number_recognizer at h
  cases h1 : digit1 s with
  | none => simp only [h1] at h; exact Option.noConfusion h
  | some p1 =>
    obtain ⟨s1, ispan⟩ := p1
    obtain ⟨hs_eq, -, hne, hdig⟩ := digit1_decomp h1
    cases hi : ispan with
    | nil => exact absurd hi hne
    | cons c is2 =>
      refine ⟨c, is2 ++ s1, ?_, hdig c (hi ▸ List.mem_cons_self c is2)⟩
      rw [hs_eq, hi, List.cons_append]

theorem parse_number_append {s r : List Char} {q : ℚ} (t : List Char)
    (h : parse_number s = some (r, q))
    (hcond : (r ≠ [] ∧ ¬ r = ['.']) ∨ headSafeB t = true) :
    parse_number (s ++ t) = some (r ++ t, q) := by
  unfold parse_number number_recognizer at h ⊢
  cases h1 : digit1 s with
  | none => simp only [h1] at h; exact Option.noConfusion h
  | some p1 =>
    obtain ⟨s1, ispan⟩ := p1
    simp only [h1] at h
    cases hp1 : parseF64 ispan with
    | none => simp only [hp1] at h; exact Option.noConfusion h
    | some q1 =>
      simp only [hp1] at h
      cases h3 : charP '.' s1 with
      | none =>
        simp only [h3, hp1] at h
        obtain ⟨hr, hq⟩ : s1 = r ∧ q1 = q := by
          simp only [Option.some.injEq, Prod.mk.injEq] at h
          exact h
        subst hr; subst hq
        cases hs1c : s1 with
        | nil =>
          have hsafe : headSafeB t = true := by
            rcases hcond with ⟨hne, -⟩ | hsafe
            · exact absurd hs1c hne
            · exact hsafe
          have hd : digit1 (s ++ t) = some (t, ispan) :=
            digit1_append_empty t (hs1c ▸ h1) fun c hc => (headSafeB_head hsafe hc).1
          have hdot : charP '.' t = none := by
            cases t with
            | nil => rfl
            | cons c t1 => exact charP_cons_ne t1 (headSafeB_head hsafe rfl).2
          simp only [hd, hp1, hdot, hs1c, List.nil_append]
        | cons c r1 =>
          have hcdot : ¬ c = '.' := charP_none_cons (hs1c ▸ h3)
          have hd := digit1_append_stop2 t (hs1c ▸ h1)
          simp only [hd, hp1, charP_cons_ne _ hcdot, hs1c, List.cons_append]
      | some s2 =>
        have hs1dot : s1 = '.' :: s2 := charP_decomp h3
        simp only [h3] at h
        cases h4 : digit1 s2 with
        | none =>
          simp only [h4, hp1] at h
          obtain ⟨hr, hq⟩ : s1 = r ∧ q1 = q := by
            simp only [Option.some.injEq, Prod.mk.injEq] at h
            exact h
          subst hr; subst hq
          have hd : digit1 (s ++ t) = some ('.' :: (s2 ++ t), ispan) :=
            digit1_append_stop2 t (hs1dot ▸ h1)
          cases hs2c : s2 with
          | nil =>
            have hsafe : headSafeB t = true := by
              rcases hcond with ⟨-, hnd⟩ | hsafe
              · rw [hs1dot, hs2c] at hnd
                exact absurd rfl hnd
              · exact hsafe
            have hd2 : digit1 t = none := by
              cases t with
              | nil => rfl
              | cons c t1 => exact digit1_cons_nondigit t1 (headSafeB_head hsafe rfl).1
            simp only [hd, hp1, charP_cons_self, hs2c, List.nil_append, hd2, hs1dot,
              List.cons_append]
          | cons c2 r2 =>
            have hc2 : c2.isDigit = false := digit1_none_cons (hs2c ▸ h4)
            have hd2 : digit1 (s2 ++ t) = none := by
              rw [hs2c, List.cons_append]
              exact digit1_cons_nondigit _ hc2
            rw [hs2c] at hd2
            simp only [hd, hp1, charP_cons_self, hs2c, List.cons_append] at hd2 ⊢
            simp only [hd2, hs1dot, List.cons_append]
            simp only [hp1, hs2c, List.cons_append]
        | some p4 =>
          obtain ⟨s3, fspan⟩ := p4
          simp only [h4] at h
          obtain ⟨-, -, hfne, hfdig⟩ := digit1_decomp h4
          have hp4 := parseF64_digits hfne hfdig
          simp only [hp4] at h
          have hspan := parseF64_decimal
            (by obtain ⟨-, -, hine, -⟩ := digit1_decomp h1; exact hine) hfne
            (by obtain ⟨-, -, -, hidig⟩ := digit1_decomp h1; exact hidig) hfdig
          simp only [hspan] at h
          obtain ⟨hr, hq⟩ : s3 = r ∧
              mkRat (digitsToNat ispan * 10 ^ fspan.length + digitsToNat fspan)
                (10 ^ fspan.length) = q := by
            simp only [Option.some.injEq, Prod.mk.injEq] at h
            exact h
          subst hr; subst hq
          have hd : digit1 (s ++ t) = some ('.' :: (s2 ++ t), ispan) :=
            digit1_append_stop2 t (hs1dot ▸ h1)
          cases hs3c : s3 with
          | nil =>
            have hsafe : headSafeB t = true := by
              rcases hcond with ⟨hne, -⟩ | hsafe
              · exact absurd hs3c hne
              · exact hsafe
            have hd2 : digit1 (s2 ++ t) = some (t, fspan) :=
              digit1_append_empty t (hs3c ▸ h4) fun c hc => (headSafeB_head hsafe hc).1
            simp only [hd, hp1, charP_cons_self, hd2, hp4, hspan, hs3c, List.nil_append]
          | cons c3 r3 =>
            have hd2 : digit1 (s2 ++ t) = some (c3 :: (r3 ++ t), fspan) :=
              digit1_append_stop2 t (hs3c ▸ h4)
            simp only [hd, hp1, charP_cons_self, hd2, hp4, hspan, hs3c, List.cons_append]

theorem parse_object_with_head {pv : List Char → Option (List Char × JsonValue)}
    {f : Nat} {s : List Char} {x : List Char × JsonValue}
    (h : parse_object_with pv f s = some x) : ∃ s1, multispace0 s = '{' :: s1 := by
  unfold parse_object_with at h
  cases h1 : charP '{' (multispace0 s) with
  | none => simp only [h1] at h; exact Option.noConfusion h
  | some s1 => exact ⟨s1, charP_decomp h1⟩

theorem parse_array_with_head {pv : List Char → Option (List Char × JsonValue)}
    {f : Nat} {s : List Char} {x : List Char × JsonValue}
    (h : parse_array_with pv f s = some x) : ∃ s1, multispace0 s = '[' :: s1 := by
  unfold parse_array_with at h
  cases h1 : charP '[' (multispace0 s) with
  | none => simp only [h1] at h; exact Option.noConfusion h
  | some s1 => exact ⟨s1, charP_decomp h1⟩

theorem comma_sep_append {s r : List Char} (t : List Char) (h : comma_sep s = some r) :
    comma_sep (s ++ t) = some (r ++ t) := by
  unfold comma_sep at h ⊢
  have hd : multispace0 s = ',' :: r := charP_decomp h
  rw [multispace0_append_of_ne_nil t (by rw [hd]; exact List.cons_ne_nil _ _), hd,
    List.cons_append, charP_cons_self]

theorem comma_sep_none_transfer {s : List Char} {c : Char} (t : List Char)
    (h : (multispace0 s).head? = some c) (hc : ¬ c = ',') : comma_sep (s ++ t) = none := by
  unfold comma_sep
  obtain ⟨s1, hs1⟩ : ∃ s1, multispace0 s = c :: s1 := by
    cases hm : multispace0 s with
    | nil => rw [hm] at h; exact Option.noConfusion h
    | cons x r =>
      rw [hm] at h
      injection h with h
      exact ⟨r, by rw [h]⟩
  rw [multispace0_append_of_ne_nil t (by rw [hs1]; exact List.cons_ne_nil _ _), hs1,
    List.cons_append]
  exact charP_cons_ne _ hc

theorem parse_valueF_none_of_head {s : List Char} {c : Char}
    (h : (multispace0 s).head? = some c) (h1 : ¬ c = '{') (h2 : ¬ c = '[')
    (h3 : ¬ c = '"') (h4 : c.isDigit = false) (h5 : ¬ c = 't') (h6 : ¬ c = 'f')
    (h7 : ¬ c = 'n') : ∀ g, parse_valueF g s = none := by
  intro g
  obtain ⟨s1, hs1⟩ : ∃ s1, multispace0 s = c :: s1 := by
    cases hm : multispace0 s with
    | nil => rw [hm] at h; exact Option.noConfusion h
    | cons x r =>
      rw [hm] at h
      injection h with h
      exact ⟨r, by rw [h]⟩
  have hws : isWsChar c = false := multispace0_head_not_ws h
  cases g with
  | zero => rfl
  | succ g =>
    rw [parse_valueF_succ, hs1]
    rw [parse_object_with_ne_head _ _ s1 hws h1, parse_array_with_ne_head _ _ s1 hws h2,
      parse_string_ne_head s1 h3, parse_number_nondigit s1 h4,
      parse_boolean_ne_head s1 h5 h6, parse_null_ne_head s1 h7]

theorem parse_pair_with_ne_head {pv : List Char → Option (List Char × JsonValue)}
    {c : Char} (r : List Char) (h : ¬ c = '"') : parse_pair_with pv (c :: r) = none := by
  simp only [parse_pair_with, parse_string_ne_head r h]

theorem suffix_singleton {r : List Char} {x : Char} (h : r <:+ [x]) (hne : r ≠ []) :
    r = [x] := by
  obtain ⟨u, hu⟩ := h
  cases r with
  | nil => exact absurd rfl hne
  | cons a r' =>
    cases u with
    | nil => simpa using hu
    | cons b u' =>
      exfalso
      have := congrArg List.length hu
      simp only [List.length_append, List.length_cons, List.length_nil] at this
      omega

theorem parse_pair_with_append {pvf pvg : List Char → Option (List Char × JsonValue)}
    (hpv : ∀ s t r v, pvf s = some (r, v) → r ≠ [] → ¬ r = ['.'] →
      pvg (s ++ t) = some (r ++ t, v))
    {s r : List Char} {p : List Char × JsonValue} (t : List Char)
    (h : parse_pair_with pvf s = some (r, p)) (hne : r ≠ []) (hnd : ¬ r = ['.']) :
    parse_pair_with pvg (s ++ t) = some (r ++ t, p) := by
  unfold parse_pair_with at h ⊢
  cases h1 : parse_string s with
  | none => simp only [h1] at h; exact Option.noConfusion h
  | some p1 =>
    obtain ⟨s1, key⟩ := p1
    simp only [h1] at h
    cases h2 : charP ':' (multispace0 s1) with
    | none => simp only [h2] at h; exact Option.noConfusion h
    | some s2 =>
      simp only [h2] at h
      cases h3 : pvf s2 with
      | none => simp only [h3] at h; exact Option.noConfusion h
      | some p3 =>
        obtain ⟨s3, v⟩ := p3
        simp only [h3, Option.some.injEq, Prod.mk.injEq] at h
        obtain ⟨hr3, hp3⟩ := h
        subst hr3
        subst hp3
        have hps := parse_string_append t h1
        have hmd : multispace0 s1 = ':' :: s2 := charP_decomp h2
        have hc2 : charP ':' (multispace0 (s1 ++ t)) = some (s2 ++ t) := by
          rw [multispace0_append_of_ne_nil t (by rw [hmd]; exact List.cons_ne_nil _ _), hmd,
            List.cons_append, charP_cons_self]
        have hg := hpv s2 t s3 v h3 hne hnd
        simp only [hps, hc2, hg]

theorem sepLoopF_append {α : Type} {elemf elemg : List Char → Option (List Char × α)}
    (cc : Char) (hcc : ¬ cc = ',') (hccd : ¬ cc = '.')
    (helem : ∀ s t r a, elemf s = some (r, a) → r ≠ [] → ¬ r = ['.'] →
      elemg (s ++ t) = some (r ++ t, a))
    (helem_suffix : ∀ s r a, elemf s = some (r, a) → r <:+ s) :
    ∀ (f g : Nat), f ≤ g → ∀ (s t : List Char) (acc : List α) (r : List Char) (l : List α),
      sepLoopF f comma_sep elemf s acc = some (r, l) →
      (multispace0 r).head? = some cc →
      sepLoopF g comma_sep elemg (s ++ t) acc = some (r ++ t, l) := by
  intro f
  induction f with
  | zero =>
    intro g _ s t acc r l h _
    rw [sepLoopF_zero] at h
    exact Option.noConfusion h
  | succ f ih =>
    intro g hfg s t acc r l h hr
    obtain ⟨g', rfl⟩ : ∃ g', g = g' + 1 := ⟨g - 1, by omega⟩
    cases hsep : comma_sep s with
    | none =>
      rw [sepLoopF_sep_none f _ _ s acc hsep] at h
      injection h with h
      injection h with h1 h2
      subst h1
      subst h2
      exact sepLoopF_sep_none g' _ _ _ acc (comma_sep_none_transfer t hr hcc)
    | some s1 =>
      have hlen : ¬ s1.length = s.length := by
        intro hl
        rw [sepLoopF_succ] at h
        simp only [hsep, if_pos hl] at h
        exact Option.noConfusion h
      rw [sepLoopF_sep_some f _ _ s s1 acc hsep hlen] at h
      cases helemv : elemf s1 with
      | none =>
        simp only [helemv] at h
        injection h with h
        injection h with h1 h2
        subst h1
        exfalso
        have hd : multispace0 s = ',' :: s1 := charP_decomp hsep
        rw [hd] at hr
        injection hr with hr
        exact hcc hr.symm
      | some p2 =>
        obtain ⟨s2, a⟩ := p2
        simp only [helemv] at h
        have hrs2 : r <:+ s2 :=
          sepLoopF_suffix (fun a b hb => comma_sep_suffix hb) helem_suffix f s2 (acc ++ [a]) r l h
        have hrne : r ≠ [] := by
          intro hx
          rw [hx, multispace0_nil] at hr
          exact Option.noConfusion hr
        have hs2ne : s2 ≠ [] := by
          intro hx
          rw [hx] at hrs2
          exact hrne (by simpa using hrs2)
        have hs2nd : ¬ s2 = ['.'] := by
          intro hx
          rw [hx] at hrs2
          have hre := suffix_singleton hrs2 hrne
          rw [hre, @multispace0_cons_nws '.' [] (by decide)] at hr
          rw [List.head?_cons] at hr
          injection hr with hr
          exact hccd hr.symm
        have hsepx := comma_sep_append t hsep
        have hlenx : ¬ (s1 ++ t).length = (s ++ t).length := by
          simp only [List.length_append]
          omega
        rw [sepLoopF_sep_some g' _ _ (s ++ t) (s1 ++ t) acc hsepx hlenx]
        have helemx := helem s1 t s2 a helemv hs2ne hs2nd
        simp only [helemx]
        exact ih g' (by omega) s2 t (acc ++ [a]) r l h hr

theorem separated_list0F_append {α : Type} {elemf elemg : List Char → Option (List Char × α)}
    (cc : Char) (hcc : ¬ cc = ',') (hccd : ¬ cc = '.')
    (helem : ∀ s t r a, elemf s = some (r, a) → r ≠ [] → ¬ r = ['.'] →
      elemg (s ++ t) = some (r ++ t, a))
    (helem_suffix : ∀ s r a, elemf s = some (r, a) → r <:+ s)
    (helem_none : ∀ s' t', elemf s' = none → (multispace0 s').head? = some cc →
      elemg (s' ++ t') = none)
    {f g : Nat} (hfg : f ≤ g) {s t r : List Char} {l : List α}
    (h : separated_list0F f comma_sep elemf s = some (r, l))
    (hr : (multispace0 r).head? = some cc) :
    separated_list0F g comma_sep elemg (s ++ t) = some (r ++ t, l) := by
  unfold separated_list0F at h ⊢
  cases h1 : elemf s with
  | none =>
    simp only [h1] at h
    injection h with h
    injection h with h1' h2'
    subst h1'
    subst h2'
    simp only [helem_none s t h1 hr]
  | some p1 =>
    obtain ⟨s1, a⟩ := p1
    simp only [h1] at h
    have hrs1 : r <:+ s1 := sepLoopF_suffix (fun a b hb => comma_sep_suffix hb) helem_suffix f s1 [a] r l h
    have hrne : r ≠ [] := by
      intro hx
      rw [hx, multispace0_nil] at hr
      exact Option.noConfusion hr
    have hs1ne : s1 ≠ [] := by
      intro hx
      rw [hx] at hrs1
      exact hrne (by simpa using hrs1)
    have hs1nd : ¬ s1 = ['.'] := by
      intro hx
      rw [hx] at hrs1
      have hre := suffix_singleton hrs1 hrne
      rw [hre, @multispace0_cons_nws '.' [] (by decide)] at hr
      rw [List.head?_cons] at hr
      injection hr with hr
      exact hccd hr.symm
    simp only [helem s t s1 a h1 hs1ne hs1nd]
    exact sepLoopF_append cc hcc hccd helem helem_suffix f g hfg s1 t [a] r l h hr

theorem parse_object_with_append (f g : Nat) (hfg : f ≤ g)
    (hIH : ∀ s t r v, parse_valueF f s = some (r, v) → r ≠ [] → ¬ r = ['.'] →
      parse_valueF g (s ++ t) = some (r ++ t, v))
    {s r : List Char} {v : JsonValue} (t : List Char)
    (h : parse_object_with (parse_valueF f) f s = some (r, v)) :
    parse_object_with (parse_valueF g) g (s ++ t) = some (r ++ t, v) := by
  unfold parse_object_with at h ⊢
  cases h1 : charP '{' (multispace0 s) with
  | none => simp only [h1] at h; exact Option.noConfusion h
  | some s1 =>
    simp only [h1] at h
    have hd1 : multispace0 s = '{' :: s1 := charP_decomp h1
    have hc1 : charP '{' (multispace0 (s ++ t)) = some (s1 ++ t) := by
      rw [multispace0_append_of_ne_nil t (by rw [hd1]; exact List.cons_ne_nil _ _), hd1,
        List.cons_append, charP_cons_self]
    simp only [hc1]
    cases h2 : separated_list0F f comma_sep (parse_pair_with (parse_valueF f)) s1 with
    | none => simp only [h2] at h; exact Option.noConfusion h
    | some p2 =>
      obtain ⟨s2, pairs⟩ := p2
      simp only [h2] at h
      cases h3 : charP '}' (multispace0 s2) with
      | none => simp only [h3] at h; exact Option.noConfusion h
      | some s3 =>
        simp only [h3, Option.some.injEq, Prod.mk.injEq] at h
        obtain ⟨hr3, hv3⟩ := h
        subst hr3
        subst hv3
        have hd2 : multispace0 s2 = '}' :: s3 := charP_decomp h3
        have hr2 : (multispace0 s2).head? = some '}' := by rw [hd2]; rfl
        have hsl : separated_list0F g comma_sep (parse_pair_with (parse_valueF g)) (s1 ++ t)
            = some (s2 ++ t, pairs) := separated_list0F_append '}' (by decide) (by decide)
          (fun s' t' r' a' hp hne hnd => parse_pair_with_append hIH t' hp hne hnd)
          (fun s' r' a' hp =>
            parse_pair_with_suffix (fun a b c hc => parse_valueF_suffix f a b c hc) hp)
          (fun s' t' _ hh => by
            cases s' with
            | nil =>
              rw [multispace0_nil] at hh
              exact Option.noConfusion hh
            | cons x r' =>
              have hx : ¬ x = '"' :=
                head_ne_of_multispace0_head hh (by decide) (by decide) x r' rfl
              rw [List.cons_append]
              exact parse_pair_with_ne_head (r' ++ t') hx)
          hfg h2 hr2
        simp only [hsl]
        have hc3 : charP '}' (multispace0 (s2 ++ t)) = some (s3 ++ t) := by
          rw [multispace0_append_of_ne_nil t (by rw [hd2]; exact List.cons_ne_nil _ _), hd2,
            List.cons_append, charP_cons_self]
        simp only [hc3]

theorem parse_array_with_append (f g : Nat) (hfg : f ≤ g)
    (hIH : ∀ s t r v, parse_valueF f s = some (r, v) → r ≠ [] → ¬ r = ['.'] →
      parse_valueF g (s ++ t) = some (r ++ t, v))
    {s r : List Char} {v : JsonValue} (t : List Char)
    (h : parse_array_with (parse_valueF f) f s = some (r, v)) :
    parse_array_with (parse_valueF g) g (s ++ t) = some (r ++ t, v) := by
  unfold parse_array_with at h ⊢
  cases h1 : charP '[' (multispace0 s) with
  | none => simp only [h1] at h; exact Option.noConfusion h
  | some s1 =>
    simp only [h1] at h
    have hd1 : multispace0 s = '[' :: s1 := charP_decomp h1
    have hc1 : charP '[' (multispace0 (s ++ t)) = some (s1 ++ t) := by
      rw [multispace0_append_of_ne_nil t (by rw [hd1]; exact List.cons_ne_nil _ _), hd1,
        List.cons_append, charP_cons_self]
    simp only [hc1]
    cases h2 : separated_list0F f comma_sep (parse_valueF f) s1 with
    | none => simp only [h2] at h; exact Option.noConfusion h
    | some p2 =>
      obtain ⟨s2, elems⟩ := p2
      simp only [h2] at h
      cases h3 : charP ']' (multispace0 s2) with
      | none => simp only [h3] at h; exact Option.noConfusion h
      | some s3 =>
        simp only [h3, Option.some.injEq, Prod.mk.injEq] at h
        obtain ⟨hr3, hv3⟩ := h
        subst hr3
        subst hv3
        have hd2 : multispace0 s2 = ']' :: s3 := charP_decomp h3
        have hr2 : (multispace0 s2).head? = some ']' := by rw [hd2]; rfl
        have hsl : separated_list0F g comma_sep (parse_valueF g) (s1 ++ t)
            = some (s2 ++ t, elems) := separated_list0F_append ']' (by decide) (by decide) hIH
          (fun a b c hc => parse_valueF_suffix f a b c hc)
          (fun s' t' _ hh => by
            obtain ⟨u, hu⟩ : ∃ u, multispace0 s' = ']' :: u := by
              cases hm : multispace0 s' with
              | nil => rw [hm] at hh; exact Option.noConfusion hh
              | cons x u =>
                rw [hm, List.head?_cons] at hh
                injection hh with hh
                exact ⟨u, by rw [hh]⟩
            have hhead : (multispace0 (s' ++ t')).head? = some ']' := by
              rw [multispace0_append_of_ne_nil t' (by rw [hu]; exact List.cons_ne_nil _ _),
                hu, List.cons_append, List.head?_cons]
            exact parse_valueF_none_of_head hhead (by decide) (by decide) (by decide)
              (by decide) (by decide) (by decide) (by decide) g)
          hfg h2 hr2
        simp only [hsl]
        have hc3 : charP ']' (multispace0 (s2 ++ t)) = some (s3 ++ t) := by
          rw [multispace0_append_of_ne_nil t (by rw [hd2]; exact List.cons_ne_nil _ _), hd2,
            List.cons_append, charP_cons_self]
        simp only [hc3]

theorem parse_valueF_append :
    ∀ (f g : Nat), f ≤ g → ∀ (s t r : List Char) (v : JsonValue),
      parse_valueF f s = some (r, v) →
      ((r ≠ [] ∧ ¬ r = ['.']) ∨ headSafeB t = true) →
      parse_valueF g (s ++ t) = some (r ++ t, v) := by
  intro f
  induction f with
  | zero =>
    intro g _ s t r v h _
    rw [parse_valueF_zero] at h
    exact Option.noConfusion h
  | succ f ih =>
    intro g hfg s t r v h hcond
    obtain ⟨g', rfl⟩ : ∃ g', g = g' + 1 := ⟨g - 1, by omega⟩
    have hIH : ∀ s t r v, parse_valueF f s = some (r, v) → r ≠ [] → ¬ r = ['.'] →
        parse_valueF g' (s ++ t) = some (r ++ t, v) :=
      fun s' t' r' v' h' hne hnd => ih g' (by omega) s' t' r' v' h' (Or.inl ⟨hne, hnd⟩)
    rw [parse_valueF_succ] at h
    cases hm : multispace0 s with
    | nil =>
      rw [hm, parse_object_with_nil, parse_array_with_nil, parse_string_nil,
        parse_number_nil, parse_boolean_nil, parse_null_nil] at h
      exact Option.noConfusion h
    | cons c0 u0 =>
      have hmnn : multispace0 s ≠ [] := by rw [hm]; exact List.cons_ne_nil _ _
      have hms : multispace0 (s ++ t) = multispace0 s ++ t :=
        multispace0_append_of_ne_nil t hmnn
      rw [parse_valueF_succ, hms]
      cases hobj : parse_object_with (parse_valueF f) f (multispace0 s) with
      | some p =>
        obtain ⟨rr, vv⟩ := p
        simp only [hobj] at h
        injection h with h
        injection h with h1 h2
        subst h1
        subst h2
        have hox := parse_object_with_append f g' (by omega) hIH t hobj
        simp only [hox]
      | none =>
        simp only [hobj] at h
        cases harr : parse_array_with (parse_valueF f) f (multispace0 s) with
        | some p =>
          obtain ⟨rr, vv⟩ := p
          simp only [harr] at h
          injection h with h
          injection h with h1 h2
          subst h1
          subst h2
          obtain ⟨u, hu⟩ := parse_array_with_head harr
          rw [multispace0_idem] at hu
          have hox : parse_object_with (parse_valueF g') g' (multispace0 s ++ t) = none := by
            rw [hu, List.cons_append]
            exact parse_object_with_ne_head _ _ _ (by decide) (by decide)
          have hax := parse_array_with_append f g' (by omega) hIH t harr
          simp only [hox, hax]
        | none =>
          simp only [harr] at h
          cases hstr : parse_string (multispace0 s) with
          | some p =>
            obtain ⟨rr, str⟩ := p
            simp only [hstr] at h
            injection h with h
            injection h with h1 h2
            subst h1
            subst h2
            obtain ⟨u, hu⟩ := parse_string_head hstr
            have hox : parse_object_with (parse_valueF g') g' (multispace0 s ++ t) = none := by
              rw [hu, List.cons_append]
              exact parse_object_with_ne_head _ _ _ (by decide) (by decide)
            have hax : parse_array_with (parse_valueF g') g' (multispace0 s ++ t) = none := by
              rw [hu, List.cons_append]
              exact parse_array_with_ne_head _ _ _ (by decide) (by decide)
            have hsx := parse_string_append t hstr
            simp only [hox, hax, hsx]
          | none =>
            simp only [hstr] at h
            cases hnum : parse_number (multispace0 s) with
            | some p =>
              obtain ⟨rr, q⟩ := p
              simp only [hnum] at h
              injection h with h
              injection h with h1 h2
              subst h1
              subst h2
              obtain ⟨c, u, hu, hdig⟩ := parse_number_head hnum
              have hws : isWsChar c = false := multispace0_head_not_ws (by rw [hu]; rfl)
              have hc1 : ¬ c = '{' := fun hh => by
                rw [hh] at hdig
                exact absurd hdig (by decide)
              have hc2 : ¬ c = '[' := fun hh => by
                rw [hh] at hdig
                exact absurd hdig (by decide)
              have hc3 : ¬ c = '"' := fun hh => by
                rw [hh] at hdig
                exact absurd hdig (by decide)
              have hox : parse_object_with (parse_valueF g') g' (multispace0 s ++ t) = none := by
                rw [hu, List.cons_append]
                exact parse_object_with_ne_head _ _ _ hws hc1
              have hax : parse_array_with (parse_valueF g') g' (multispace0 s ++ t) = none := by
                rw [hu, List.cons_append]
                exact parse_array_with_ne_head _ _ _ hws hc2
              have hsx : parse_string (multispace0 s ++ t) = none := by
                rw [hu, List.cons_append]
                exact parse_string_ne_head _ hc3
              have hnx := parse_number_append t hnum hcond
              simp only [hox, hax, hsx, hnx]
            | none =>
              simp only [hnum] at h
              cases hboo : parse_boolean (multispace0 s) with
              | some p =>
                obtain ⟨rr, b⟩ := p
                simp only [hboo] at h
                injection h with h
                injection h with h1 h2
                subst h1
                subst h2
                obtain ⟨c, u, hu, hc⟩ := parse_boolean_head hboo
                have hws : isWsChar c = false := multispace0_head_not_ws (by rw [hu]; rfl)
                have hc1 : ¬ c = '{' := by
                  rcases hc with hc | hc <;> rw [hc] <;> decide
                have hc2 : ¬ c = '[' := by
                  rcases hc with hc | hc <;> rw [hc] <;> decide
                have hc3 : ¬ c = '"' := by
                  rcases hc with hc | hc <;> rw [hc] <;> decide
                have hc4 : c.isDigit = false := by
                  rcases hc with hc | hc <;> rw [hc] <;> decide
                have hox : parse_object_with (parse_valueF g') g' (multispace0 s ++ t) = none := by
                  rw [hu, List.cons_append]
                  exact parse_object_with_ne_head _ _ _ hws hc1
                have hax : parse_array_with (parse_valueF g') g' (multispace0 s ++ t) = none := by
                  rw [hu, List.cons_append]
                  exact parse_array_with_ne_head _ _ _ hws hc2
                have hsx : parse_string (multispace0 s ++ t) = none := by
                  rw [hu, List.cons_append]
                  exact parse_string_ne_head _ hc3
                have hnx : parse_number (multispace0 s ++ t) = none := by
                  rw [hu, List.cons_append]
                  exact parse_number_nondigit _ hc4
                have hbx := parse_boolean_append t hboo
                simp only [hox, hax, hsx, hnx, hbx]
              | none =>
                simp only [hboo] at h
                cases hnul : parse_null (multispace0 s) with
                | none =>
                  simp only [hnul] at h
                  exact Option.noConfusion h
                | some p =>
                  obtain ⟨rr, un⟩ := p
                  simp only [hnul] at h
                  injection h with h
                  injection h with h1 h2
                  subst h1
                  subst h2
                  obtain ⟨u, hu⟩ := parse_null_head hnul
                  have hox : parse_object_with (parse_valueF g') g' (multispace0 s ++ t)
                      = none := by
                    rw [hu, List.cons_append]
                    exact parse_object_with_ne_head _ _ _ (by decide) (by decide)
                  have hax : parse_array_with (parse_valueF g') g' (multispace0 s ++ t)
                      = none := by
                    rw [hu, List.cons_append]
                    exact parse_array_with_ne_head _ _ _ (by decide) (by decide)
                  have hsx : parse_string (multispace0 s ++ t) = none := by
                    rw [hu, List.cons_append]
                    exact parse_string_ne_head _ (by decide)
                  have hnx : parse_number (multispace0 s ++ t) = none := by
                    rw [hu, List.cons_append]
                    exact parse_number_nondigit _ (by decide)
                  have hbx : parse_boolean (multispace0 s ++ t) = none := by
                    rw [hu, List.cons_append]
                    exact parse_boolean_ne_head _ (by decide) (by decide)
                  have hlx := parse_null_append t hnul
                  simp only [hox, hax, hsx, hnx, hbx, hlx]

theorem parse_valueF_nil : ∀ f, parse_valueF f [] = none := by
  intro f
  cases f with
  | zero => rfl
  | succ f =>
    rw [parse_valueF_succ, multispace0_nil, parse_object_with_nil, parse_array_with_nil,
      parse_string_nil, parse_number_nil, parse_boolean_nil, parse_null_nil]

/--
C5 (amended): for every input consisting of a complete valid JSON value followed by
trailing characters whose first character is neither an ASCII digit nor a dot, the entry
point parse_json succeeds, returns the parsed value, and returns the trailing characters
as the unconsumed remainder rather than reporting an error.  The digit/dot restriction is
necessary: the number parser munches maximally, so trailing text beginning with a digit or
a dot is absorbed into a preceding number literal instead of being left as the remainder
(see the counterexample).
-/
theorem claim_C5 (p t : List Char) (v : JsonValue)
    (hp : parse_json p = some ([], v)) (ht : headSafeB t = true) :
    parse_json (p ++ t) = some (t, v) := by
  unfold parse_json parse_value at hp ⊢
  cases hm : multispace0 p with
  | nil =>
    rw [hm, parse_valueF_nil] at hp
    exact Option.noConfusion hp
  | cons c u =>
    have hmnn : multispace0 p ≠ [] := by rw [hm]; exact List.cons_ne_nil _ _
    have hms : multispace0 (p ++ t) = multispace0 p ++ t := multispace0_append_of_ne_nil t hmnn
    rw [hms]
    have hle : fuelFor (multispace0 p) ≤ fuelFor (multispace0 p ++ t) := by
      unfold fuelFor
      have h2 : multispace0 (multispace0 p ++ t) = multispace0 (multispace0 p) ++ t :=
        multispace0_append_of_ne_nil t (by rw [multispace0_idem]; exact hmnn)
      rw [h2, multispace0_idem]
      simp only [List.length_append]
      omega
    have happ := parse_valueF_append (fuelFor (multispace0 p)) (fuelFor (multispace0 p ++ t))
      hle (multispace0 p) t [] v hp (Or.inr ht)
    simpa using happ

/--
C5 counterexample to the unrestricted claim: the complete valid JSON value `12` followed
by the trailing characters `3` does NOT leave `3` as the unconsumed remainder — the number
parser munches the digit into the value and consumes everything (remainder `[]`, value
`123`); likewise `1` followed by `.5` consumes everything as the decimal `1.5`.  The
trailing characters are nonempty, so the remainder the original claim promises differs
from the remainder the code returns.
-/
theorem claim_C5_counterexample :
    (parse_json "12".toList).map Prod.fst = some [] ∧
    (parse_json ("12".toList ++ "3".toList)).map Prod.fst = some [] ∧
    "3".toList ≠ [] ∧
    (parse_json "1".toList).map Prod.fst = some [] ∧
    (parse_json ("1".toList ++ ".5".toList)).map Prod.fst = some [] ∧
    ".5".toList ≠ [] :=
  ⟨rfl, rfl, by decide, rfl, rfl, by decide⟩

/-- C5 witness: the amended theorem applied at the concrete complete value `true` with
trailing text ` x`. -/
theorem claim_C5_witness :
    parse_json ("true".toList ++ " x".toList) = some (" x".toList, JsonValue.Boolean true) :=
  claim_C5 "true".toList " x".toList (JsonValue.Boolean true) rfl (by decide)
